import Mathlib

/-!
Verification development for the dataRAG schema-retrieval core.

This file gives a shallow embedding, in Lean 4, of the core of the
dataRAG repository: the schema model and multi-format parser
(`src/core/schema_parser.py`), the hybrid retrieval engine
(`src/core/hybrid_retriever.py`), the GraphRAG triple extraction
(`src/core/graph_rag_utils.py`) and the folder-merge ingestion
(`src/core/ingest_utils.py`), together with theorems settling the
specification claims about them.

Modelling conventions:
* Decoded JSON/YAML documents are modelled by the inductive `Val`.
  Mapping keys are modelled as strings (JSON keys always are; YAML
  documents with non-string keys are outside the modelled input space,
  and a non-string value appearing where the code uses it as a name is
  modelled by its Python `str()` rendering `pyStr`).
* Python dicts are insertion-ordered association lists with unique
  keys; assignment that overwrites an existing key keeps its position
  (`dictInsert`), exactly like a Python dict.
* Python floats are modelled by `ℚ`; all concrete scores appearing in
  the claims (1/2, 3/4, weights 0.6/0.2/0.2) are exactly representable.
* Exceptions are modelled by `Except PErr`; `PErr.typeError` and
  `PErr.attributeError` stand for Python `TypeError`/`AttributeError`
  raised by iterating or attribute-accessing a value of the wrong
  shape, `PErr.valueError` for the explicit `raise ValueError(...)`.
* `json.loads`/`yaml.safe_load` are external libraries: raw-text input
  is modelled by the pair of their decode outcomes
  (`ParseInput.text jsonResult yamlResult`), mirroring the source's
  control flow `try json.loads / except: try yaml.safe_load`.
* Character classes (`\W`, `str.strip`, `str.lower`) are modelled over
  ASCII, which covers every identifier in the claims.
-/

namespace DataRAG

/-- A decoded JSON/YAML value (Python object produced by the decoders). -/
inductive Val where
  | vnull : Val
  | vbool : Bool → Val
  | vint : Int → Val
  | vstr : String → Val
  | vlist : List Val → Val
  | vdict : List (String × Val) → Val
deriving Repr

/-- Python truthiness of a decoded value (`if not x`). -/
def Val.truthy : Val → Bool
  | .vnull => false
  | .vbool b => b
  | .vint n => n != 0
  | .vstr s => s != ""
  | .vlist xs => !xs.isEmpty
  | .vdict xs => !xs.isEmpty

/-- Truthiness of the result of `dict.get` (absent key gives `None`, falsy). -/
def optTruthy : Option Val → Bool
  | some v => v.truthy
  | none => false

/-- Is the value a mapping (`isinstance(x, dict)`)? -/
def Val.isDict : Val → Bool
  | .vdict _ => true
  | _ => false

def joinComma : List String → String
  | [] => ""
  | [s] => s
  | s :: rest => s ++ ", " ++ joinComma rest

mutual

/-- Python `repr` of a decoded value (used by `str` on lists/dicts). -/
def pyRepr : Val → String
  | .vnull => "None"
  | .vbool true => "True"
  | .vbool false => "False"
  | .vint n => toString n
  | .vstr s => "\x27" ++ s ++ "\x27"
  | .vlist xs => "[" ++ joinComma (pyReprList xs) ++ "]"
  | .vdict xs => "\x7b" ++ joinComma (pyReprDict xs) ++ "\x7d"

def pyReprList : List Val → List String
  | [] => []
  | v :: vs => pyRepr v :: pyReprList vs

def pyReprDict : List (String × Val) → List String
  | [] => []
  | (k, v) :: vs => ("\x27" ++ k ++ "\x27: " ++ pyRepr v) :: pyReprDict vs

end

/-- Python `str()` of a decoded value. -/
def pyStr : Val → String
  | .vnull => "None"
  | .vbool true => "True"
  | .vbool false => "False"
  | .vint n => toString n
  | .vstr s => s
  | .vlist xs => pyRepr (.vlist xs)
  | .vdict xs => pyRepr (.vdict xs)

/-- First-match lookup in an insertion-ordered dict. -/
def dget {α : Type} : List (String × α) → String → Option α
  | [], _ => none
  | (k0, v) :: rest, k => if k0 == k then some v else dget rest k

/-- `dict.get(k, default)`. -/
def dgetD (d : List (String × Val)) (k : String) (dflt : Val) : Val :=
  (dget d k).getD dflt

/-- Python dict assignment `d[k] = v`: overwrite in place, else append. -/
def dictInsert {α : Type} : List (String × α) → String → α → List (String × α)
  | [], k, v => [(k, v)]
  | (k0, v0) :: rest, k, v =>
    if k0 == k then (k, v) :: rest else (k0, v0) :: dictInsert rest k v

/-- Python `str.strip()` (ASCII whitespace). -/
def pyStrip (s : String) : String :=
  ⟨((s.data.dropWhile Char.isWhitespace).reverse.dropWhile Char.isWhitespace).reverse⟩

/-- A regex word character (`\w` over ASCII). -/
def wordChar (c : Char) : Bool := c.isAlphanum || c == '_'

/-- `re.sub(r"^\W+|\W+$", "", s)`: drop one leading and one trailing
run of non-word characters. -/
def stripNonWord (s : String) : String :=
  ⟨((s.data.dropWhile fun c => !wordChar c).reverse.dropWhile fun c =>
      !wordChar c).reverse⟩

/-- List-level subroutine: is `n` a prefix-match of `h`? (`==` on chars). -/
def isPre : List Char → List Char → Bool
  | [], _ => true
  | _ :: _, [] => false
  | a :: as, b :: bs => a == b && isPre as bs

/-- Python substring containment `needle in hay`. -/
def strContains (needle hay : String) : Bool :=
  go needle.data hay.data
where
  go (n : List Char) : List Char → Bool
    | [] => n.isEmpty
    | c :: t => isPre n (c :: t) || go n t

-- === Schema model (`src/core/schema_parser.py`, dataclasses) ===

structure ForeignKey where
  column : String
  ref_table : String
  ref_column : String
deriving DecidableEq, Repr

structure Column where
  name : String
  data_type : Val
  is_primary : Bool
  is_unique : Bool
  foreign_key : Option ForeignKey
deriving Repr

structure Table where
  name : String
  columns : List (String × Column)
  primary_key : Option Val
  foreign_keys : List (String × ForeignKey)
deriving Repr

structure Schema where
  tables : List (String × Table)
deriving Repr

/-- Errors raised while parsing. -/
inductive PErr where
  | typeError : PErr
  | attributeError : PErr
  | valueError : String → PErr
deriving DecidableEq, Repr

-- === SchemaParser.parse ===

/-- `table_def.get("primary_key")`; an explicit `null` decodes to Python
`None`, indistinguishable from an absent key, hence normalised to `none`. -/
def pkOf (table_def : List (String × Val)) : Option Val :=
  match dget table_def "primary_key" with
  | some .vnull => none
  | x => x

/-- `table_def.get("primary_key") == col_name` (Python `==` between the
stored object and a string key). -/
def valEqStr (v : Option Val) (s : String) : Bool :=
  match v with
  | some (.vstr t) => t == s
  | _ => false

/-- The column items iterated by the parser: a dict's items, or the
`(col.get("name"), col)` pairs of a list of dicts with truthy names.
Iterating a string yields characters (never dicts); iterating `None`,
a bool or an int raises `TypeError`. -/
def colItems (raw_cols : Val) : Except PErr (List (String × Val))  :=
  match raw_cols with
  | .vdict d => .ok d
  | .vlist l => .ok (l.filterMap fun col =>
      match col with
      | .vdict cd =>
        if optTruthy (dget cd "name") then
          some (pyStr ((dget cd "name").getD .vnull), .vdict cd)
        else none
      | _ => none)
  | .vstr _ => .ok []
  | _ => .error .typeError

/-- One iteration of the column loop (both `tables` shapes share it
verbatim in the source, lines 67-80 and 118-131): skip empty names,
non-dict defs and columns with no truthy `type`/`data_type`. -/
def parseOneCol (table_def : List (String × Val)) (col_name : String)
    (col_def : Val) : Option Column :=
  match col_def with
  | .vdict cd =>
    if col_name == "" then none
    else
      let dt := if optTruthy (dget cd "type") then dget cd "type"
                else dget cd "data_type"
      if optTruthy dt then
        some { name := col_name
               data_type := dt.getD .vnull
               is_primary := (dgetD cd "primary_key" (.vbool false)).truthy
                 || valEqStr (dget table_def "primary_key") col_name
               is_unique := (dgetD cd "unique" (.vbool false)).truthy
               foreign_key := none }
      else none
  | _ => none

def parseCols (table_def : List (String × Val))
    (items : List (String × Val)) : List (String × Column) :=
  items.foldl
    (fun cols p =>
      match parseOneCol table_def p.1 p.2 with
      | some c => dictInsert cols p.1 c
      | none => cols)
    []

/-- Attach one foreign key: set `columns_map[col].foreign_key` when the
column exists, and always index it in `foreign_keys_map` (source lines
98-100 and 146-148, identical in both shapes). -/
def fkAttach (cols : List (String × Column))
    (m : List (String × ForeignKey)) (c : String) (fk : ForeignKey) :
    List (String × Column) × List (String × ForeignKey) :=
  let cols := if (dget cols c).isSome then
      cols.map fun p =>
        if p.1 == c then (p.1, { p.2 with foreign_key := some fk }) else p
    else cols
  (cols, dictInsert m c fk)

/-- One foreign-key entry in the mapping-of-tables shape: names are
sanitised (`str(...).strip()` for the local column,
`re.sub(r"^\W+|\W+$", "", str(...).strip())` for the references). -/
def parseFkMapping (fk : Val) : Option (String × ForeignKey) :=
  match fk with
  | .vdict d =>
    match dgetD d "references" (.vdict []) with
    | .vdict rd =>
      let col_raw := dget d "column"
      let rt := dget rd "table"
      let rc := dget rd "column"
      if optTruthy col_raw && optTruthy rt && optTruthy rc then
        let col_name := pyStrip (pyStr (col_raw.getD .vnull))
        some (col_name,
          { column := col_name
            ref_table := stripNonWord (pyStrip (pyStr (rt.getD .vnull)))
            ref_column := stripNonWord (pyStrip (pyStr (rc.getD .vnull))) })
      else none
    | _ => none
  | _ => none

/-- One foreign-key entry in the list-of-tables shape: the raw values
are stored without any sanitisation (source lines 142-148). -/
def parseFkList (fk : Val) : Option (String × ForeignKey) :=
  match fk with
  | .vdict d =>
    match dgetD d "references" (.vdict []) with
    | .vdict rd =>
      let col_raw := dget d "column"
      let rt := dget rd "table"
      let rc := dget rd "column"
      if optTruthy col_raw && optTruthy rt && optTruthy rc then
        let col_name := pyStr (col_raw.getD .vnull)
        some (col_name,
          { column := col_name
            ref_table := pyStr (rt.getD .vnull)
            ref_column := pyStr (rc.getD .vnull) })
      else none
    | _ => none
  | _ => none

def fkFold (step : Val → Option (String × ForeignKey))
    (cols : List (String × Column)) (fks : List Val) :
    List (String × Column) × List (String × ForeignKey) :=
  fks.foldl
    (fun cm fk =>
      match step fk with
      | some (c, f) => fkAttach cm.1 cm.2 c f
      | none => cm)
    (cols, [])

/-- Foreign-key parsing in the mapping shape:
`for fk in table_def.get("foreign_keys", [])` — iterating a dict yields
string keys (all skipped), a string yields characters (all skipped), and
`None`/bool/int raises `TypeError`. -/
def parseFksMapping (table_def : List (String × Val))
    (cols : List (String × Column)) :
    Except PErr (List (String × Column) × List (String × ForeignKey)) :=
  match dgetD table_def "foreign_keys" (.vlist []) with
  | .vlist fks => .ok (fkFold parseFkMapping cols fks)
  | .vdict _ => .ok (cols, [])
  | .vstr _ => .ok (cols, [])
  | _ => .error .typeError

/-- Foreign-key parsing in the list shape:
`fk_defs = table_def.get("foreign_keys", []) or []` followed by
`if isinstance(fk_defs, list)` — non-list truthy values are silently
ignored, so no `TypeError` is possible here. -/
def parseFksList (table_def : List (String × Val))
    (cols : List (String × Column)) :
    List (String × Column) × List (String × ForeignKey) :=
  let raw := dgetD table_def "foreign_keys" (.vlist [])
  let raw := if raw.truthy then raw else .vlist []
  match raw with
  | .vlist fks => fkFold parseFkList cols fks
  | _ => (cols, [])

def parseTableMapping (name : String) (table_def : List (String × Val)) :
    Except PErr Table := do
  let items ← colItems (dgetD table_def "columns" (.vdict []))
  let cols := parseCols table_def items
  let (cols, fks) ← parseFksMapping table_def cols
  .ok { name := name, columns := cols, primary_key := pkOf table_def,
        foreign_keys := fks }

def parseTableList (name : String) (table_def : List (String × Val)) :
    Except PErr Table := do
  let items ← colItems (dgetD table_def "columns" (.vdict []))
  let cols := parseCols table_def items
  let (cols, fks) := parseFksList table_def cols
  .ok { name := name, columns := cols, primary_key := pkOf table_def,
        foreign_keys := fks }

def parseTablesMapping :
    List (String × Val) → List (String × Table) →
    Except PErr (List (String × Table))
  | [], tables => .ok tables
  | p :: rest, tables =>
    match p.2 with
    | .vdict td =>
      if p.1 == "" then parseTablesMapping rest tables
      else
        match parseTableMapping p.1 td with
        | .error e => .error e
        | .ok t => parseTablesMapping rest (dictInsert tables p.1 t)
    | _ => parseTablesMapping rest tables

def parseTablesList :
    List Val → List (String × Table) → Except PErr (List (String × Table))
  | [], tables => .ok tables
  | v :: rest, tables =>
    match v with
    | .vdict td =>
      if optTruthy (dget td "name") then
        match parseTableList (pyStr ((dget td "name").getD .vnull)) td with
        | .error e => .error e
        | .ok t => parseTablesList rest
            (dictInsert tables (pyStr ((dget td "name").getD .vnull)) t)
      else parseTablesList rest tables
    | _ => parseTablesList rest tables

/-- Columns of one dbt model (`data_type` only, no keys). -/
def parseModelCols (l : List Val) : List (String × Column) :=
  l.foldl
    (fun cols col =>
      match col with
      | .vdict cd =>
        if optTruthy (dget cd "name")
            && optTruthy (dget cd "data_type") then
          let cn := pyStr ((dget cd "name").getD .vnull)
          dictInsert cols cn
            { name := cn
              data_type := (dget cd "data_type").getD .vnull
              is_primary := false
              is_unique := false
              foreign_key := none }
        else cols
      | _ => cols)
    []

/-- dbt-style `models` list: columns take `data_type` only, primary and
foreign keys are never populated, and a model with no parsed columns is
dropped. -/
def parseModels : List Val → List (String × Table) → List (String × Table)
  | [], tables => tables
  | v :: rest, tables =>
    match v with
    | .vdict md =>
      if optTruthy (dget md "name") then
        let name := pyStr ((dget md "name").getD .vnull)
        let cols :=
          match dget md "columns" with
          | some (.vlist l) => parseModelCols l
          | _ => []
        if cols.isEmpty then parseModels rest tables
        else parseModels rest (dictInsert tables name
          { name := name, columns := cols, primary_key := none,
            foreign_keys := [] })
      else parseModels rest tables
    | _ => parseModels rest tables

/-- `example.get("tables", [])` is iterated: a list yields its elements,
a string its characters, a dict its keys; other non-falsy values raise
`TypeError`. -/
def exampleTableNames (v : Val) : Except PErr (List Val) :=
  match v with
  | .vlist l => .ok l
  | .vstr s => .ok (s.data.map fun c => Val.vstr ⟨[c]⟩)
  | .vdict d => .ok (d.map fun p => Val.vstr p.1)
  | _ => .error .typeError

/-- Add a stub table (no columns) per truthy unseen name. -/
def addStubTables : List Val → List (String × Table) →
    List (String × Table)
  | [], tables => tables
  | tv :: rest, tables =>
    let tn := pyStr tv
    if tv.truthy && (dget tables tn).isNone then
      addStubTables rest
        (tables ++ [(tn, { name := tn, columns := [],
                           primary_key := none, foreign_keys := [] })])
    else addStubTables rest tables

/-- Fallback: seed stub tables from an `examples` list. -/
def parseExamples : List Val → List (String × Table) →
    Except PErr (List (String × Table))
  | [], tables => .ok tables
  | ex :: rest, tables =>
    match ex with
    | .vdict ed =>
      match exampleTableNames (dgetD ed "tables" (.vlist [])) with
      | .error e => .error e
      | .ok names => parseExamples rest (addStubTables names tables)
    | _ => parseExamples rest tables

/-- Is `table.primary_key and table.primary_key not in table.columns`
(the dangling-primary-key test)? Membership of a non-string object in a
string-keyed dict is `False`. -/
def pkDangling (pk : Option Val) (cols : List (String × Column)) : Bool :=
  match pk with
  | some (.vstr s) => (dget cols s).isNone
  | some v => v.truthy
  | none => false

/-- Validation of schema integrity (source lines 198-206): first
violation raises, in table-then-foreign-key iteration order. -/
def validateFks (tables : List (String × Table)) (tname : String) :
    List (String × ForeignKey) → Except PErr Unit
  | [] => .ok ()
  | (_, fk) :: rest =>
    match dget tables fk.ref_table with
    | none => .error (.valueError ("Referenced table " ++ fk.ref_table
        ++ " not found for foreign key on " ++ tname ++ "." ++ fk.column))
    | some rt =>
      if (dget rt.columns fk.ref_column).isNone then
        .error (.valueError ("Referenced column " ++ fk.ref_column
          ++ " not found in table " ++ fk.ref_table
          ++ " for foreign key on " ++ tname ++ "." ++ fk.column))
      else validateFks tables tname rest

def validateLoop (tables : List (String × Table)) :
    List (String × Table) → Except PErr Unit
  | [] => .ok ()
  | (_, t) :: rest =>
    if pkDangling t.primary_key t.columns then
      .error (.valueError ("Primary key "
        ++ pyStr ((t.primary_key).getD .vnull) ++ " not found in table "
        ++ t.name))
    else
      match validateFks tables t.name t.foreign_keys with
      | .error e => .error e
      | .ok _ => validateLoop tables rest

def validateTables (tables : List (String × Table)) : Except PErr Unit :=
  validateLoop tables tables

/-- The ordered shape dispatch: `tables` as a mapping, `tables` as a
list, then dbt `models`; anything else loads nothing. -/
def shapeTables (data : List (String × Val)) :
    Except PErr (List (String × Table)) :=
  match dget data "tables" with
  | some (.vdict ts) => parseTablesMapping ts []
  | some (.vlist ts) => parseTablesList ts []
  | _ =>
    match dget data "models" with
    | some (.vlist ms) => .ok (parseModels ms [])
    | _ => .ok []

/-- `if not tables and ... "examples" in data ...`: seed stubs only
when nothing was loaded. -/
def applyExamplesFallback (data : List (String × Val))
    (tables : List (String × Table)) :
    Except PErr (List (String × Table)) :=
  if tables.isEmpty then
    match dget data "examples" with
    | some (.vlist exs) => parseExamples exs tables
    | _ => .ok tables
  else .ok tables

def buildTables (data : List (String × Val)) :
    Except PErr (List (String × Table)) :=
  match shapeTables data with
  | .error e => .error e
  | .ok tables => applyExamplesFallback data tables

/-- `parse` applied to an already-decoded value: attribute access
`data.get` on a non-mapping raises `AttributeError`. -/
def parseData (data : Val) : Except PErr Schema :=
  match data with
  | .vdict d =>
    match buildTables d with
    | .error e => .error e
    | .ok tables =>
      match validateTables tables with
      | .error e => .error e
      | .ok _ => .ok ⟨tables⟩
  | _ => .error .attributeError

/-- The input of `SchemaParser.parse`: either a pre-decoded mapping, or
raw text represented by the outcomes of `json.loads` then
`yaml.safe_load` on it (`none` = that decoder raised). -/
inductive ParseInput where
  | mapping : List (String × Val) → ParseInput
  | text : Option Val → Option Val → ParseInput

/-- `SchemaParser.parse` (source lines 36-207): a mapping is used as-is;
raw text is decoded as JSON, then as YAML; if both decoders fail an
empty `Schema` is returned. -/
def SchemaParser.parse : ParseInput → Except PErr Schema
  | .mapping d => parseData (.vdict d)
  | .text jsonRes yamlRes =>
    match jsonRes with
    | some v => parseData v
    | none =>
      match yamlRes with
      | some v => parseData v
      | none => .ok ⟨[]⟩

-- === difflib.SequenceMatcher (used by fuzzy_match) ===

/-- One row of `find_longest_match`: scan the `j` positions where
`b[j] == a[i]` in ascending order, building the new `j2len` table from
the previous row and tracking the strictly-best block so far. A key
`j - 1` below the window is never present in the previous row, so
`j = 0` always restarts a run. -/
def flmRow (oldm : List (Nat × Nat)) (i : Nat) :
    List Nat → List (Nat × Nat) → Nat × Nat × Nat →
    List (Nat × Nat) × (Nat × Nat × Nat)
  | [], newm, best => (newm, best)
  | j :: js, newm, (bi, bj, bs) =>
    let k := if j == 0 then 1 else (oldm.lookup (j - 1)).getD 0 + 1
    let best := if bs < k then (i + 1 - k, j + 1 - k, k) else (bi, bj, bs)
    flmRow oldm i js (newm ++ [(j, k)]) best

def flmRows (a b : List Char) (blo bhi : Nat) :
    List Nat → List (Nat × Nat) → Nat × Nat × Nat → Nat × Nat × Nat
  | [], _, best => best
  | i :: is, m, best =>
    let js := (List.range' blo (bhi - blo)).filter fun j =>
      b.getD j ' ' == a.getD i ' '
    let (m, best) := flmRow m i js [] best
    flmRows a b blo bhi is m best

/-- `SequenceMatcher.find_longest_match` on the window
`a[alo:ahi] × b[blo:bhi]` (no junk: the queries and identifier names
involved are far below the 200-element autojunk threshold, so the
junk-extension loops are no-ops). -/
def findLongestMatch (a b : List Char) (alo ahi blo bhi : Nat) :
    Nat × Nat × Nat :=
  flmRows a b blo bhi (List.range' alo (ahi - alo)) [] (alo, blo, 0)

/-- Total size of all matching blocks (`get_matching_blocks` drives the
ratio only through this sum). The fuel bounds the number of windows
ever processed; `seqMatchSum` supplies enough of it. -/
def matchSumAux (a b : List Char) :
    Nat → List (Nat × Nat × Nat × Nat) → Nat → Nat
  | 0, _, acc => acc
  | _ + 1, [], acc => acc
  | fuel + 1, (alo, ahi, blo, bhi) :: rest, acc =>
    let (i, j, k) := findLongestMatch a b alo ahi blo bhi
    if k == 0 then matchSumAux a b fuel rest acc
    else
      let rest := if alo < i && blo < j then (alo, i, blo, j) :: rest else rest
      let rest := if i + k < ahi && j + k < bhi then
          (i + k, ahi, j + k, bhi) :: rest
        else rest
      matchSumAux a b fuel rest (acc + k)

def seqMatchSum (a b : List Char) : Nat :=
  matchSumAux a b (2 * (a.length + b.length) + 2)
    [(0, a.length, 0, b.length)] 0

/-- `SequenceMatcher(None, a, b).ratio()`:
`2*M / (len(a)+len(b))`, and 1 when both are empty. -/
def seqRatioOf (a b : List Char) : ℚ :=
  if a.length + b.length == 0 then 1
  else 2 * (seqMatchSum a b : ℚ) / ((a.length : ℚ) + (b.length : ℚ))

/-- `fuzzy_match(a, b) = SequenceMatcher(None, a, b).ratio()`. -/
def fuzzy_match (a b : String) : ℚ := seqRatioOf a.data b.data

-- === Hybrid retriever (`src/core/hybrid_retriever.py`) ===

/-- Vector-search hit: `{text, metadata: {name, type, ...}, distance}`.
Only the fields the retriever reads are modelled. -/
structure Meta where
  name : String
  mtype : String
deriving DecidableEq, Repr

structure VecRes where
  text : String
  metadata : Meta
  distance : ℚ
deriving DecidableEq, Repr

/-- A result/candidate dict of the retriever. Each `Option` field
models presence of the corresponding key; `graph_distance` can be
present with value `None` (`some none`). `trace` and `trace_log` are
insertion-ordered dicts of numeric entries. -/
structure Cand where
  ctype : String
  name : String
  text : String
  score : Option ℚ
  graph_distance : Option (Option ℚ)
  vector_score : Option ℚ
  graph_score : Option ℚ
  keyword_score : Option ℚ
  trace : Option (List (String × ℚ))
  vector_score_norm : Option ℚ
  graph_score_norm : Option ℚ
  keyword_score_norm : Option ℚ
  final_score : Option ℚ
  trace_log : Option (List (String × ℚ))
deriving DecidableEq, Repr

/-- A fresh result dict as built by `keyword_search`/`graph_search`:
only `type`, `name`, `score`, `text` (and `graph_distance` for graph
results) are present. -/
def mkResult (t n : String) (sc : ℚ) (txt : String)
    (gd : Option (Option ℚ)) : Cand :=
  { ctype := t, name := n, text := txt, score := some sc,
    graph_distance := gd, vector_score := none, graph_score := none,
    keyword_score := none, trace := none, vector_score_norm := none,
    graph_score_norm := none, keyword_score_norm := none,
    final_score := none, trace_log := none }

/-- Stable insertion into a descending-by-key list: an element inserted
from the left goes before every element of equal key, which makes
`sortDesc` agree with Python's stable `sorted(..., reverse=True)`. -/
def insertDesc {α : Type} (key : α → ℚ) (c : α) : List α → List α
  | [] => [c]
  | d :: ds => if key c < key d then d :: insertDesc key c ds else c :: d :: ds

/-- `sorted(l, key=key, reverse=True)` (stable descending sort). -/
def sortDesc {α : Type} (key : α → ℚ) : List α → List α
  | [] => []
  | c :: cs => insertDesc key c (sortDesc key cs)

def candScore (c : Cand) : ℚ := c.score.getD 0

/-- The match score the keyword searcher gives a name (the same
expression appears for tables and for columns in the source):
`max(query_lower in name.lower(), fuzzy_match(query_lower,
name.lower()))`, with the containment boolean coerced to 1.0/0.0. -/
def kwScore (query_lower nm : String) : ℚ :=
  max (if strContains query_lower nm.toLower then (1 : ℚ) else 0)
    (fuzzy_match query_lower nm.toLower)

/-- The candidate dicts for one table's name and columns. -/
def kwTableCand (p : String × Table) (query_lower : String) : Cand :=
  mkResult "table" p.1 (kwScore query_lower p.1) ("Table: " ++ p.1) none

def kwColCand (tn cn : String) (query_lower : String) : Cand :=
  mkResult "column" (tn ++ "." ++ cn) (kwScore query_lower cn)
    ("Column: " ++ cn ++ " in " ++ tn) none

/-- The accumulation loop of `keyword_search`: every table and every
column whose score reaches the threshold is appended, in discovery
order. -/
def kwCandidates (query_lower : String) (schema : Schema)
    (fuzzy_threshold : ℚ) : List Cand :=
  schema.tables.foldl
    (fun results p =>
      let results :=
        if fuzzy_threshold ≤ kwScore query_lower p.1 then
          results ++ [kwTableCand p query_lower]
        else results
      p.2.columns.foldl
        (fun results q =>
          if fuzzy_threshold ≤ kwScore query_lower q.1 then
            results ++ [kwColCand p.1 q.1 query_lower]
          else results)
        results)
    []

/-- `keyword_search(query, schema, top_k, fuzzy_threshold)`: fuzzy and
substring match over all table and column names, kept at or above the
threshold, top `top_k` by score descending (stable). -/
def keyword_search (query : String) (schema : Schema) (top_k : Nat)
    (fuzzy_threshold : ℚ) : List Cand :=
  (sortDesc candScore
    (kwCandidates query.toLower schema fuzzy_threshold)).take top_k

-- `extract_graph_rag_triples` (src/core/graph_rag_utils.py)
def extract_graph_rag_triples (schema : Schema) :
    List (String × String × String) :=
  schema.tables.foldl
    (fun triples p =>
      let triples := triples ++ p.2.columns.map
        (fun c => (p.1, "HAS_COLUMN", c.1))
      triples ++ p.2.foreign_keys.map
        (fun f => (p.1, "FOREIGN_KEY", f.2.ref_table)))
    []

def dedupKeepFirst (l : List String) : List String :=
  l.foldl (fun acc s => if s ∈ acc then acc else acc ++ [s]) []

/-- Seed tables of `graph_search`: tables whose name contains the query,
else subjects of triples whose endpoint matches. `list(set(...))` has
unspecified iteration order in Python; the model picks the
first-occurrence order (no claim depends on the seed order). -/
def graphStartTables (query_lower : String) (schema : Schema) :
    List String :=
  let start := (schema.tables.map Prod.fst).filter fun name =>
    strContains query_lower name.toLower
  if start.isEmpty then
    dedupKeepFirst ((extract_graph_rag_triples schema).foldl
      (fun acc t =>
        if strContains query_lower t.1.toLower
            || strContains query_lower t.2.2.toLower then acc ++ [t.1]
        else acc)
      [])
  else start

def mkGraphCand (table_name : String) (hops : Nat) : Cand :=
  mkResult "table" table_name (1 / ((hops : ℚ) + 1))
    ("Table: " ++ table_name ++ " (distance " ++ toString hops ++ ")")
    (some (some (hops : ℚ)))

/-- The BFS loop of `graph_search`. Each pass pops one queue entry;
entries beyond `max_hops` are dropped, hop distance 0 (the seeds) is
never appended, and both outbound and inbound foreign keys are
followed, guarded by the visited set. The fuel passed by `graph_search`
exceeds the total number of possible enqueues. -/
def graphLoop (schema : Schema) (max_hops : Nat) :
    Nat → List (String × Nat) → List String → List Cand → List Cand
  | 0, _, _, related => related
  | _ + 1, [], _, related => related
  | fuel + 1, (table_name, hops) :: queue, visited, related =>
    if max_hops < hops then graphLoop schema max_hops fuel queue visited related
    else
      let related := if 0 < hops then related ++ [mkGraphCand table_name hops]
        else related
      match dget schema.tables table_name with
      | none => graphLoop schema max_hops fuel queue visited related
      | some table =>
        let qv := table.foreign_keys.foldl
          (fun (qv : List (String × Nat) × List String) f =>
            if qv.2.contains f.2.ref_table then qv
            else (qv.1 ++ [(f.2.ref_table, hops + 1)], qv.2 ++ [f.2.ref_table]))
          (queue, visited)
        let qv := schema.tables.foldl
          (fun qv p =>
            p.2.foreign_keys.foldl
              (fun (qv : List (String × Nat) × List String) f =>
                if f.2.ref_table == table_name && !qv.2.contains p.2.name then
                  (qv.1 ++ [(p.2.name, hops + 1)], qv.2 ++ [p.2.name])
                else qv)
              qv)
          qv
        graphLoop schema max_hops fuel qv.1 qv.2 related

def totalFks (schema : Schema) : Nat :=
  (schema.tables.map fun p => p.2.foreign_keys.length).sum

/-- `graph_search(query, schema, top_k, max_hops)`: breadth-first
multi-hop traversal of the foreign-key graph from the seed tables. -/
def graph_search (query : String) (schema : Schema) (top_k : Nat)
    (max_hops : Nat) : List Cand :=
  let query_lower := query.toLower
  let start_tables := graphStartTables query_lower schema
  let fuel := start_tables.length + schema.tables.length + totalFks schema + 1
  let related := graphLoop schema max_hops fuel
    (start_tables.map fun t => (t, 0)) start_tables []
  (sortDesc candScore related).take top_k

-- === Feature fusion and re-ranking ===

/-- The candidate dict created for a vector hit (source lines 68-77). -/
def vecCand (r : VecRes) : Cand :=
  { ctype := r.metadata.mtype, name := r.metadata.name, text := r.text,
    score := none, graph_distance := some none,
    vector_score := some (1 - r.distance), graph_score := some 0,
    keyword_score := some 0, trace := some [("vector", r.distance)],
    vector_score_norm := none, graph_score_norm := none,
    keyword_score_norm := none, final_score := none, trace_log := none }

/-- `r.get("graph_distance", 1)` as a number: the trace records the hop
count when present, 1 when the key is absent. (A present-but-`None`
distance would put `None` in the trace; that value is unreachable from
`graph_search` results, which always carry a numeric distance, and is
modelled by 1.) -/
def gdOr1 (r : Cand) : ℚ :=
  match r.graph_distance with
  | some (some q) => q
  | _ => 1

/-- The field updates of the graph loop of `extract_features` (lines
78-89). In the not-yet-seen branch the source aliases the result dict
itself into `all_candidates` and then mutates it; the merged value is
the same either way. `r["score"]` is required in the source
(`KeyError` if absent); results produced by `graph_search` always carry
it, and the model defaults it to 0. -/
def graphMergeNew (r : Cand) : Cand :=
  { r with vector_score := some 0, graph_score := some (r.score.getD 0),
           keyword_score := some 0,
           graph_distance := some r.graph_distance.join,
           trace := some [("graph", gdOr1 r)] }

def graphMergeOld (c r : Cand) : Cand :=
  { c with graph_score := some (r.score.getD 0),
           graph_distance := some r.graph_distance.join,
           trace := some (dictInsert (c.trace.getD []) "graph" (gdOr1 r)) }

/-- The field updates of the keyword loop (lines 90-100). -/
def kwMergeNew (r : Cand) : Cand :=
  { r with vector_score := some 0, graph_score := some 0,
           keyword_score := some (r.score.getD 0),
           graph_distance := some none,
           trace := some [("keyword", r.score.getD 0)] }

def kwMergeOld (c r : Cand) : Cand :=
  { c with keyword_score := some (r.score.getD 0),
           trace := some (dictInsert (c.trace.getD []) "keyword"
             (r.score.getD 0)) }

/-- `extract_features(vector_results, graph_results, keyword_results)`:
deduplicate by name across the three sources, accumulating scores and
the trace map; the result is `list(all_candidates.values())` in
insertion order. (This is the value-level rendering; the in-place
mutation of the input dicts is modelled separately by
`extractFeaturesST`.) -/
def extract_features (vector_results : List VecRes)
    (graph_results keyword_results : List Cand) : List Cand :=
  let ac := vector_results.foldl
    (fun ac r => dictInsert ac r.metadata.name (vecCand r)) []
  let ac := graph_results.foldl
    (fun ac r =>
      match dget ac r.name with
      | none => dictInsert ac r.name (graphMergeNew r)
      | some c => dictInsert ac r.name (graphMergeOld c r))
    ac
  let ac := keyword_results.foldl
    (fun ac r =>
      match dget ac r.name with
      | none => dictInsert ac r.name (kwMergeNew r)
      | some c => dictInsert ac r.name (kwMergeOld c r))
    ac
  ac.map Prod.snd

/-- Min-max normalisation (`norm` inside `rerank`); every element maps
to 0 when the list is constant. `rerank` only calls it on non-empty
lists. -/
def minmaxNorm (arr : List ℚ) : List ℚ :=
  let minv := arr.foldl min (arr.headD 0)
  let maxv := arr.foldl max (arr.headD 0)
  if maxv == minv then arr.map fun _ => 0
  else arr.map fun x => (x - minv) / (maxv - minv)

/-- The per-candidate update of `rerank` (lines 124-145): normalised
fields, weighted final score, and the expanded trace log. -/
def rerankAssign (wv wg wk : ℚ) (c : Cand) (vn gn kn : ℚ) : Cand :=
  let final := wv * vn + wg * gn + wk * kn
  { c with
    vector_score_norm := some vn, graph_score_norm := some gn,
    keyword_score_norm := some kn, final_score := some final,
    trace_log := some [
      ("vector_score_raw", c.vector_score.getD 0),
      ("vector_score_norm", vn),
      ("vector_weighted", wv * vn),
      ("graph_score_raw", c.graph_score.getD 0),
      ("graph_score_norm", gn),
      ("graph_weighted", wg * gn),
      ("keyword_score_raw", c.keyword_score.getD 0),
      ("keyword_score_norm", kn),
      ("keyword_weighted", wk * kn),
      ("final_score", final)] }

/-- `rerank(candidates, w_vector, w_graph, w_keyword)`: normalise each
signal across the candidate set, attach normalised/weighted fields and
the expanded trace log, and stably sort by final score descending. -/
def rerank (candidates : List Cand) (wv wg wk : ℚ) : List Cand :=
  if candidates.isEmpty then []
  else
    let v := candidates.map fun c => c.vector_score.getD 0
    let g := candidates.map fun c => c.graph_score.getD 0
    let k := candidates.map fun c => c.keyword_score.getD 0
    let v_norm := minmaxNorm v
    let g_norm := minmaxNorm g
    let k_norm := minmaxNorm k
    let updated := (List.range candidates.length).map fun idx =>
      rerankAssign wv wg wk (candidates.getD idx (mkResult "" "" 0 "" none))
        (v_norm.getD idx 0) (g_norm.getD idx 0) (k_norm.getD idx 0)
    sortDesc (fun c => c.final_score.getD 0) updated

structure Diagnostics where
  vector_results : List VecRes
  graph_results : List Cand
  keyword_results : List Cand
  final_ranking : List Cand
deriving Repr

/-- `hybrid_retrieve(query, schema, top_k)`. The external vector
collaborator `vector_search(query, top_k)` is modelled by the
`vector_results` argument. After re-ranking, the source overwrites each
candidate's `trace_log` with its fusion-time `trace` map (line 157)
before truncating and assembling diagnostics. The source's diagnostics
hold the three input lists by reference (so the graph/keyword entries
they expose carry the in-place mutations modelled by
`extractFeaturesST`); the value they were built from is what is
recorded here. -/
def hybrid_retrieve (vector_results : List VecRes) (query : String)
    (schema : Schema) (top_k : Nat) : List Cand × Diagnostics :=
  let graph_results := graph_search query schema top_k 2
  let keyword_results := keyword_search query schema top_k (7/10)
  let candidates := extract_features vector_results graph_results
    keyword_results
  let ranked := rerank candidates (6/10) (2/10) (2/10)
  let ranked := ranked.map fun c =>
    { c with trace_log := some (c.trace.getD []) }
  let diagnostics : Diagnostics :=
    { vector_results := vector_results, graph_results := graph_results,
      keyword_results := keyword_results,
      final_ranking := ranked.take top_k }
  (ranked.take top_k, diagnostics)

-- === Heap-level model of fusion/re-ranking (for the frame claim) ===

/-- A heap of candidate dicts addressed by object identity. The graph
and keyword result lists are passed to `extract_features` as lists of
object ids so that the source's in-place mutations (`r` is stored into
`all_candidates` and then written through) are observable. Fresh ids
are allocated from `next` for the dicts the vector loop creates. -/
structure Heap where
  objs : Nat → Cand
  next : Nat

def Heap.write (h : Heap) (i : Nat) (c : Cand) : Heap :=
  { h with objs := fun j => if j == i then c else h.objs j }

def Heap.alloc (h : Heap) (c : Cand) : Heap × Nat :=
  ({ objs := fun j => if j == h.next then c else h.objs j,
     next := h.next + 1 }, h.next)

/-- Vector loop of `extract_features` over the heap: each hit allocates
a fresh candidate dict. -/
def efVecLoop : Heap → List (String × Nat) → List VecRes →
    Heap × List (String × Nat)
  | h, ac, [] => (h, ac)
  | h, ac, r :: rs =>
    let (h, i) := h.alloc (vecCand r)
    efVecLoop h (dictInsert ac r.metadata.name i) rs

/-- Graph loop over the heap: an unseen name aliases the input dict
itself into `all_candidates` and mutates it in place; a seen name
mutates the existing candidate object. -/
def efGraphLoop : Heap → List (String × Nat) → List Nat →
    Heap × List (String × Nat)
  | h, ac, [] => (h, ac)
  | h, ac, gid :: gs =>
    let r := h.objs gid
    match dget ac r.name with
    | none => efGraphLoop (h.write gid (graphMergeNew r))
        (dictInsert ac r.name gid) gs
    | some cid => efGraphLoop (h.write cid (graphMergeOld (h.objs cid) r))
        ac gs

def efKwLoop : Heap → List (String × Nat) → List Nat →
    Heap × List (String × Nat)
  | h, ac, [] => (h, ac)
  | h, ac, kid :: ks =>
    let r := h.objs kid
    match dget ac r.name with
    | none => efKwLoop (h.write kid (kwMergeNew r))
        (dictInsert ac r.name kid) ks
    | some cid => efKwLoop (h.write cid (kwMergeOld (h.objs cid) r)) ac ks

/-- `extract_features` over the heap: returns the heap and the ids of
`list(all_candidates.values())`. -/
def extractFeaturesST (h : Heap) (vector_results : List VecRes)
    (graph_ids keyword_ids : List Nat) : Heap × List Nat :=
  let (h, ac) := efVecLoop h [] vector_results
  let (h, ac) := efGraphLoop h ac graph_ids
  let (h, ac) := efKwLoop h ac keyword_ids
  (h, ac.map Prod.snd)

/-- `rerank` over the heap: the enumerate loop writes the normalised
fields and trace log through each candidate id, then the ids are
stably sorted by the (now stored) final score. -/
def rerankST (h : Heap) (ids : List Nat) (wv wg wk : ℚ) :
    Heap × List Nat :=
  if ids.isEmpty then (h, [])
  else
    let v := ids.map fun i => (h.objs i).vector_score.getD 0
    let g := ids.map fun i => (h.objs i).graph_score.getD 0
    let k := ids.map fun i => (h.objs i).keyword_score.getD 0
    let v_norm := minmaxNorm v
    let g_norm := minmaxNorm g
    let k_norm := minmaxNorm k
    let h := (List.range ids.length).foldl
      (fun h idx =>
        let i := ids.getD idx 0
        h.write i (rerankAssign wv wg wk (h.objs i)
          (v_norm.getD idx 0) (g_norm.getD idx 0) (k_norm.getD idx 0)))
      h
    (h, sortDesc (fun i => (h.objs i).final_score.getD 0) ids)

/-- Fusion followed by re-ranking over the heap (the pipeline the
frame claim quantifies over). -/
def fuseRerankST (h : Heap) (vector_results : List VecRes)
    (graph_ids keyword_ids : List Nat) (wv wg wk : ℚ) :
    Heap × List Nat :=
  let (h, ids) := extractFeaturesST h vector_results graph_ids keyword_ids
  rerankST h ids wv wg wk

-- === Folder ingestion (`src/core/ingest_utils.py`) ===

/-- Column merge of `load_folder_schema` (lines 29-32): only columns
whose name is not yet present are added. -/
def mergeColsInto (existing incoming : List (String × Column)) :
    List (String × Column) :=
  incoming.foldl
    (fun ec q => if (dget ec q.1).isSome then ec else ec ++ [q])
    existing

/-- Merge one parsed table into the master schema (lines 23-32): a new
table name is inserted whole; an existing one has its missing columns
appended (primary/foreign keys are not merged). -/
def mergeTableStep (master : Schema) (p : String × Table) : Schema :=
  match dget master.tables p.1 with
  | none => ⟨dictInsert master.tables p.1 p.2⟩
  | some existing =>
    ⟨dictInsert master.tables p.1
      { existing with
        columns := mergeColsInto existing.columns p.2.columns }⟩

def mergeSchema (master : Schema) (s : Schema) : Schema :=
  s.tables.foldl mergeTableStep master

/-- One file of `load_folder_schema`: parse and merge, skipping the
file silently when parsing raises. -/
def loadStep (master : Schema) (f : ParseInput) : Schema :=
  match SchemaParser.parse f with
  | .ok s => mergeSchema master s
  | .error _ => master

/-- `load_folder_schema`: parse each file and merge it into the master
schema. The folder is modelled by the list of its files' parse
inputs. -/
def load_folder_schema (files : List ParseInput) : Schema :=
  files.foldl loadStep ⟨[]⟩

-- === Concrete documents and schemas used by the scenario claims ===

/-- The Scenario A document of the specification (§8). -/
def scenarioADoc : List (String × Val) :=
  [("tables", .vdict [
    ("users", .vdict [("columns", .vdict [
      ("id", .vdict [("type", .vstr "integer"),
                     ("primary_key", .vbool true)])])]),
    ("posts", .vdict [
      ("columns", .vdict [
        ("id", .vdict [("type", .vstr "integer"),
                       ("primary_key", .vbool true)]),
        ("user_id", .vdict [("type", .vstr "integer")])]),
      ("foreign_keys", .vlist [.vdict [
        ("column", .vstr "user_id"),
        ("references", .vdict [("table", .vstr "users"),
                               ("column", .vstr "id")])]])])])]

def fkUsers : ForeignKey :=
  { column := "user_id", ref_table := "users", ref_column := "id" }

/-- The `posts` table that `parse` produces for `scenarioADoc`. -/
def scenarioAPosts : Table :=
  { name := "posts"
    columns := [
      ("id", { name := "id", data_type := .vstr "integer",
               is_primary := true, is_unique := false,
               foreign_key := none }),
      ("user_id", { name := "user_id", data_type := .vstr "integer",
                    is_primary := false, is_unique := false,
                    foreign_key := some fkUsers })]
    primary_key := none
    foreign_keys := [("user_id", fkUsers)] }

/-- The Schema that `parse` produces for `scenarioADoc`. -/
def scenarioASchema : Schema :=
  ⟨[("users",
     { name := "users"
       columns := [("id", { name := "id", data_type := .vstr "integer",
                            is_primary := true, is_unique := false,
                            foreign_key := none })]
       primary_key := none
       foreign_keys := [] }),
    ("posts", scenarioAPosts)]⟩

/-- A document whose foreign key names a local column (`ghost`) that is
not a column of the table: validation only checks the referenced side,
so `parse` accepts it. -/
def ghostFkDoc : List (String × Val) :=
  [("tables", .vdict [
    ("users", .vdict [("columns", .vdict [
      ("id", .vdict [("type", .vstr "integer")])])]),
    ("posts", .vdict [
      ("columns", .vdict [
        ("id", .vdict [("type", .vstr "integer")])]),
      ("foreign_keys", .vlist [.vdict [
        ("column", .vstr "ghost"),
        ("references", .vdict [("table", .vstr "users"),
                               ("column", .vstr "id")])]])])])]

/-- A mapping-shape document with markdown noise around the referenced
names; sanitisation strips it and the parse succeeds. -/
def noisyFkDoc : List (String × Val) :=
  [("tables", .vdict [
    ("users", .vdict [("columns", .vdict [
      ("id", .vdict [("type", .vstr "integer")])])]),
    ("posts", .vdict [
      ("columns", .vdict [
        ("user_id", .vdict [("type", .vstr "integer")])]),
      ("foreign_keys", .vlist [.vdict [
        ("column", .vstr " user_id "),
        ("references", .vdict [("table", .vstr "**users**"),
                               ("column", .vstr "id!")])]])])])]

/-- A list-shape document whose referenced table name carries trailing
punctuation; the list shape stores it raw, and the parse succeeds only
because a table is literally named `users*`. -/
def rawListFkDoc : List (String × Val) :=
  [("tables", .vlist [
    .vdict [("name", .vstr "posts"),
            ("columns", .vlist [
              .vdict [("name", .vstr "user_id"),
                      ("type", .vstr "integer")]]),
            ("foreign_keys", .vlist [.vdict [
              ("column", .vstr "user_id"),
              ("references", .vdict [("table", .vstr "users*"),
                                     ("column", .vstr "id")])]])],
    .vdict [("name", .vstr "users*"),
            ("columns", .vlist [
              .vdict [("name", .vstr "id"),
                      ("type", .vstr "integer")]])]])]

/-- A graph result dict as produced by `graph_search` for `posts` at
hop 1 (the object mutated in the frame counterexample). -/
def postsGraphCand : Cand :=
  mkResult "table" "posts" (1/2) "Table: posts (distance 1)"
    (some (some 1))

/-- A heap whose object 0 is `postsGraphCand`; ids 10 and above are
free for allocation. -/
def exHeap : Heap :=
  { objs := fun i => if i == 0 then postsGraphCand
      else mkResult "" "" 0 "" none,
    next := 10 }

/-- Folder files for the merge-idempotence witness: two files with
disjoint tables. -/
def fileUsers : ParseInput :=
  .mapping [("tables", .vdict [
    ("users", .vdict [("columns", .vdict [
      ("id", .vdict [("type", .vstr "integer")])])])])]

def filePosts : ParseInput :=
  .mapping [("tables", .vdict [
    ("posts", .vdict [("columns", .vdict [
      ("id", .vdict [("type", .vstr "integer")])])])])]

/-- Table names of the schema a file parses to (empty when the parse
raises); used to state disjointness of folder files. -/
def parsedNames (f : ParseInput) : List String :=
  match SchemaParser.parse f with
  | .ok s => s.tables.map Prod.fst
  | .error _ => []

-- === Statement predicates ===

/-- The §3 invariants named by the first claim: a truthy primary key
names an existing column, and every indexed foreign key resolves to an
existing table and an existing column of it. -/
def SchemaInvariants (s : Schema) : Prop :=
  ∀ p ∈ s.tables,
    (∀ pk, p.2.primary_key = some pk → pk.truthy = true →
      ∃ c, pk = .vstr c ∧ (dget p.2.columns c).isSome) ∧
    (∀ f ∈ p.2.foreign_keys,
      ∃ rt, dget s.tables f.2.ref_table = some rt ∧
        (dget rt.columns f.2.ref_column).isSome)

/-- The trace-log contract of the third claim: per source the raw,
normalised and weighted contribution, plus the final score. -/
def TraceLogComplete (c : Cand) : Prop :=
  ∀ k ∈ ["vector_score_raw", "vector_score_norm", "vector_weighted",
         "graph_score_raw", "graph_score_norm", "graph_weighted",
         "keyword_score_raw", "keyword_score_norm", "keyword_weighted",
         "final_score"],
    ((c.trace_log.getD []).lookup k).isSome

/-- Mirror property of the fifth claim: `foreign_keys` has an entry
under a name exactly when that name is a column carrying that same
foreign key. -/
def FkMirror (t : Table) : Prop :=
  ∀ c fk, dget t.foreign_keys c = some fk ↔
    ∃ col, dget t.columns c = some col ∧ col.foreign_key = some fk

/-- The direction of the mirror property that the parser does maintain:
restricted to names that are columns, `column.foreign_key` and the
`foreign_keys` index agree. -/
def MirrorCore (cols : List (String × Column))
    (m : List (String × ForeignKey)) : Prop :=
  ∀ c col fk, dget cols c = some col →
    (col.foreign_key = some fk ↔ dget m c = some fk)

def AmendedFkMirror (t : Table) : Prop := MirrorCore t.columns t.foreign_keys

/-- The `posts` table that `parse` produces for `ghostFkDoc`: its
`foreign_keys` index holds an entry under `ghost`, which is not a
column. -/
def ghostPostsTable : Table :=
  { name := "posts"
    columns := [("id", { name := "id", data_type := .vstr "integer",
                         is_primary := false, is_unique := false,
                         foreign_key := none })]
    primary_key := none
    foreign_keys := [("ghost", { column := "ghost", ref_table := "users",
                                 ref_column := "id" })] }

/-- Invariant of the BFS queue/visited pair: every seed is visited, and
any queued entry at positive hop distance is not a seed. -/
def EnqInv (start : List String)
    (qv : List (String × Nat) × List String) : Prop :=
  (∀ t ∈ start, t ∈ qv.2) ∧ ∀ p ∈ qv.1, 0 < p.2 → p.1 ∉ start

/-- What the sixth claim asserts of an entry of a graph-search result:
it is the candidate of some table at recorded hop distance `h` with
`0 < h ≤ max_hops` (hence score `1/(h+1)`), and that table is not a
seed. -/
def GraphCandOk (start : List String) (max_hops : Nat) (c : Cand) :
    Prop :=
  ∃ t h, c = mkGraphCand t h ∧ 0 < h ∧ h ≤ max_hops ∧ t ∉ start

/-- What the seventh claim asserts of a kept keyword candidate: its
score reaches the threshold and it is the table (resp. column)
candidate of an element of the schema, scored as the maximum of
substring containment and the fuzzy ratio. -/
def KwCandOk (ql : String) (schema : Schema) (thr : ℚ) (c : Cand) :
    Prop :=
  thr ≤ candScore c ∧
  ((∃ p ∈ schema.tables, c = kwTableCand p ql) ∨
   (∃ p ∈ schema.tables, ∃ q ∈ p.2.columns, c = kwColCand p.1 q.1 ql))

/-- `master` already holds every table name of `s`, each with at least
the column names `s` declares: merging `s` again can add nothing. -/
def Subsumes (master s : Schema) : Prop :=
  ∀ p ∈ s.tables, ∃ t, dget master.tables p.1 = some t ∧
    ∀ q ∈ p.2.columns, (dget t.columns q.1).isSome

/-- The master schema only grows under merging: every table key stays
present and keeps (at least) its column keys. -/
def KeyLe (m m' : Schema) : Prop :=
  ∀ n t, dget m.tables n = some t → ∃ t', dget m'.tables n = some t' ∧
    ∀ c, (dget t.columns c).isSome → (dget t'.columns c).isSome

-- === Helper lemmas: dictionaries, sorting, truncation ===

theorem dget_dictInsert_self {α : Type} (d : List (String × α)) (k : String)
    (v : α) : dget (dictInsert d k v) k = some v := by
  induction d with
  | nil => simp [dictInsert, dget]
  | cons p rest ih =>
    by_cases h : p.1 == k
    · simp [dictInsert, h, dget]
    · simp only [dictInsert, h]
      simp only [Bool.false_eq_true, if_false]
      simpa [dget, h] using ih

theorem dget_dictInsert_ne {α : Type} (d : List (String × α)) (k k' : String)
    (v : α) (h : (k' == k) = false) :
    dget (dictInsert d k v) k' = dget d k' := by
  have hne : ¬ k' = k := by simpa using h
  have hkk : (k == k') = false := by
    simp
    intro hk
    exact hne hk.symm
  induction d with
  | nil => simp [dictInsert, dget, hkk]
  | cons p rest ih =>
    by_cases hp : p.1 == k
    · have h1 : p.1 = k := by simpa using hp
      simp [dictInsert, hp, dget, hkk, h1]
    · simp only [dictInsert, hp, Bool.false_eq_true, if_false]
      by_cases hq : p.1 == k'
      · simp [dget, hq]
      · simp [dget, hq, ih]

theorem dictInsert_of_dget {α : Type} (d : List (String × α)) (k : String)
    (v : α) (h : dget d k = some v) : dictInsert d k v = d := by
  induction d with
  | nil => simp [dget] at h
  | cons p rest ih =>
    obtain ⟨a, b⟩ := p
    by_cases hp : a == k
    · have h1 : a = k := by simpa using hp
      simp [dget, hp] at h
      simp [dictInsert, hp, h1, h]
    · simp [dget, hp] at h
      simp [dictInsert, hp, ih h]

theorem mem_insertDesc {α : Type} (key : α → ℚ) (c : α) (l : List α)
    (a : α) : a ∈ insertDesc key c l ↔ a = c ∨ a ∈ l := by
  induction l with
  | nil => simp [insertDesc]
  | cons d ds ih =>
    by_cases h : key c < key d
    · simp only [insertDesc, h, if_true, List.mem_cons, ih]
      tauto
    · simp [insertDesc, h]

theorem mem_sortDesc {α : Type} (key : α → ℚ) (l : List α) (a : α) :
    a ∈ sortDesc key l ↔ a ∈ l := by
  induction l with
  | nil => simp [sortDesc]
  | cons c cs ih => simp [sortDesc, mem_insertDesc, ih]

theorem mem_of_mem_take {α : Type} {l : List α} {n : Nat} {a : α}
    (h : a ∈ l.take n) : a ∈ l := List.take_subset n l h

-- === C1: parse returns only schemas satisfying the §3 invariants ===

theorem validateFks_ok (tables : List (String × Table)) (tname : String)
    (fks : List (String × ForeignKey))
    (h : validateFks tables tname fks = .ok ()) :
    ∀ f ∈ fks, ∃ rt, dget tables f.2.ref_table = some rt ∧
      (dget rt.columns f.2.ref_column).isSome := by
  induction fks with
  | nil => simp
  | cons p rest ih =>
    obtain ⟨c, fk⟩ := p
    simp only [validateFks] at h
    cases hrt : dget tables fk.ref_table with
    | none => simp [hrt] at h
    | some rt =>
      simp only [hrt] at h
      by_cases hrc : (dget rt.columns fk.ref_column).isNone
      · simp [hrc] at h
      · simp only [hrc, Bool.false_eq_true, if_false] at h
        intro f hf
        rcases List.mem_cons.mp hf with hf | hf
        · subst hf
          refine ⟨rt, hrt, ?_⟩
          simpa [Option.isNone_iff_eq_none, ← Option.ne_none_iff_isSome]
            using hrc
        · exact ih h f hf

theorem pkDangling_false (pk : Option Val) (cols : List (String × Column))
    (h : pkDangling pk cols = false) :
    ∀ v, pk = some v → v.truthy = true →
      ∃ c, v = .vstr c ∧ (dget cols c).isSome := by
  intro v hpk htr
  subst hpk
  cases v with
  | vstr s =>
    refine ⟨s, rfl, ?_⟩
    simp [pkDangling] at h
    simpa [Option.isNone_iff_eq_none, ← Option.ne_none_iff_isSome] using h
  | vnull => simp [Val.truthy] at htr
  | vbool b => simp [pkDangling, htr] at h
  | vint n => simp [pkDangling, htr] at h
  | vlist xs => simp [pkDangling, htr] at h
  | vdict xs => simp [pkDangling, htr] at h

theorem validateLoop_ok (tables rest : List (String × Table))
    (h : validateLoop tables rest = .ok ()) :
    ∀ p ∈ rest, pkDangling p.2.primary_key p.2.columns = false ∧
      validateFks tables p.2.name p.2.foreign_keys = .ok () := by
  induction rest with
  | nil => simp
  | cons p rest ih =>
    obtain ⟨n, t⟩ := p
    simp only [validateLoop] at h
    by_cases hpk : pkDangling t.primary_key t.columns
    · simp [hpk] at h
    · simp only [hpk, Bool.false_eq_true, if_false] at h
      cases hfk : validateFks tables t.name t.foreign_keys with
      | error e => simp [hfk] at h
      | ok u =>
        cases u
        simp only [hfk] at h
        intro q hq
        rcases List.mem_cons.mp hq with hq | hq
        · subst hq
          exact ⟨by simpa using hpk, hfk⟩
        · exact ih h q hq

theorem validateTables_invariants (tables : List (String × Table))
    (h : validateTables tables = .ok ()) :
    SchemaInvariants ⟨tables⟩ := by
  intro p hp
  have hloop := validateLoop_ok tables tables h p hp
  exact ⟨pkDangling_false _ _ hloop.1, validateFks_ok _ _ _ hloop.2⟩

theorem parseData_ok_validate (v : Val) (s : Schema)
    (h : parseData v = .ok s) : validateTables s.tables = .ok () := by
  cases v with
  | vdict d =>
    simp only [parseData] at h
    cases hb : buildTables d with
    | error e => simp [hb] at h
    | ok tables =>
      simp only [hb] at h
      cases hv : validateTables tables with
      | error e => simp [hv] at h
      | ok u =>
        cases u
        simp only [hv] at h
        cases h
        exact hv
  | vnull => simp [parseData] at h
  | vbool b => simp [parseData] at h
  | vint n => simp [parseData] at h
  | vstr t => simp [parseData] at h
  | vlist xs => simp [parseData] at h

/-- C1: whenever `SchemaParser.parse` returns a `Schema` rather than
raising, that schema satisfies the §3 invariants: a (truthy) primary
key names an existing column of its table, every foreign key's
`ref_table` is a table of the schema, and its `ref_column` is a column
of that referenced table; a violating document makes `parse` raise a
`ValueError` instead of returning. -/
theorem C1_parse_only_valid_schemas (input : ParseInput) (s : Schema)
    (h : SchemaParser.parse input = .ok s) : SchemaInvariants s := by
  have hval : validateTables s.tables = .ok () ∨ s = ⟨[]⟩ := by
    cases input with
    | mapping d =>
      simp only [SchemaParser.parse] at h
      exact Or.inl (parseData_ok_validate _ _ h)
    | text jsonRes yamlRes =>
      cases jsonRes with
      | some v =>
        simp only [SchemaParser.parse] at h
        exact Or.inl (parseData_ok_validate _ _ h)
      | none =>
        cases yamlRes with
        | some v =>
          simp only [SchemaParser.parse] at h
          exact Or.inl (parseData_ok_validate _ _ h)
        | none =>
          simp only [SchemaParser.parse] at h
          cases h
          exact Or.inr rfl
  rcases hval with hval | hval
  · have := validateTables_invariants s.tables hval
    exact this
  · subst hval
    intro p hp
    simp at hp

/-- Witness for C1 at the Scenario A document. -/
theorem C1_witness : SchemaInvariants scenarioASchema :=
  C1_parse_only_valid_schemas (.mapping scenarioADoc) scenarioASchema rfl

-- === C2: unrecognisable text input ===

/-- C2 (counterexample): text with no recognisable schema structure can
still decode — YAML decodes `hello` to the scalar string `hello` — and
`parse` then raises `AttributeError` at `data.get("tables")` instead of
returning an empty `Schema`, so the claim as stated is false. -/
theorem C2_counterexample :
    SchemaParser.parse (.text none (some (.vstr "hello")))
      = .error .attributeError := rfl

/-- C2 (amended): `parse` returns an empty `Schema` exactly when both
the JSON and the YAML decoder fail; text that decodes (by either
decoder) to a non-mapping value instead raises `AttributeError`. -/
theorem C2_amended_unparseable_text :
    SchemaParser.parse (.text none none) = .ok ⟨[]⟩
    ∧ (∀ v : Val, v.isDict = false →
        SchemaParser.parse (.text none (some v)) = .error .attributeError)
    ∧ (∀ (v : Val) (y : Option Val), v.isDict = false →
        SchemaParser.parse (.text (some v) y) = .error .attributeError) := by
  refine ⟨rfl, ?_, ?_⟩
  · intro v hv
    cases v <;> simp_all [SchemaParser.parse, parseData, Val.isDict]
  · intro v y hv
    cases v <;> simp_all [SchemaParser.parse, parseData, Val.isDict]

/-- Witness for C2's amended theorem at a concrete non-mapping decode. -/
theorem C2_amended_witness :
    SchemaParser.parse (.text none (some (.vlist [.vint 1])))
      = .error .attributeError :=
  C2_amended_unparseable_text.2.1 (.vlist [.vint 1]) rfl

-- === C3: the returned trace log ===

/-- C3: the expanded trace log built by `rerank` (raw, normalised and
weighted contribution per source, plus the final score) is overwritten
by `hybrid_retrieve` with the fusion-time `trace` map before returning
(source line 157), so the candidates handed back expose only the raw
per-source contributions. At the Scenario A schema with query `user`
and no vector hits, the three returned candidates carry exactly their
fusion traces, and not every returned candidate satisfies the claimed
trace-log contract. -/
theorem C3_trace_log_overwritten :
    ((hybrid_retrieve [] "user" scenarioASchema 5).1.map Cand.trace_log)
      = [some [("graph", 1)], some [("keyword", 1)], some [("keyword", 1)]]
    ∧ ¬ (∀ c ∈ (hybrid_retrieve [] "user" scenarioASchema 5).1,
          TraceLogComplete c) := by
  refine ⟨by with_unfolding_all decide, ?_⟩
  simp only [TraceLogComplete]
  with_unfolding_all decide

-- === C4: diagnostics final ranking is truncated ===

/-- C4 (counterexample): with `top_k = 1` over the Scenario A schema
the fused candidate set has two entries but the diagnostics
`final_ranking` holds only one, so it cannot contain every fused
candidate. -/
theorem C4_counterexample :
    (hybrid_retrieve [] "user" scenarioASchema 1).2.final_ranking.length
      < (extract_features [] (graph_search "user" scenarioASchema 1 2)
          (keyword_search "user" scenarioASchema 1 (7/10))).length := by
  with_unfolding_all decide

/-- C4 (amended): the diagnostics `final_ranking` equals the returned
ranked list — the first `top_k` candidates of the final ranking, not
the full pre-truncation ranking — and hence never exceeds `top_k`
entries. -/
theorem C4_final_ranking_truncated (vector_results : List VecRes)
    (query : String) (schema : Schema) (top_k : Nat) :
    (hybrid_retrieve vector_results query schema top_k).2.final_ranking
      = (hybrid_retrieve vector_results query schema top_k).1
    ∧ (hybrid_retrieve vector_results query schema
        top_k).2.final_ranking.length ≤ top_k := by
  constructor
  · rfl
  · simp only [hybrid_retrieve]
    simp [List.length_take]

-- === C5: the foreign-key index vs per-column foreign keys ===

theorem dget_dictInsert {α : Type} (d : List (String × α)) (k c : String)
    (v : α) : dget (dictInsert d k v) c
      = if c == k then some v else dget d c := by
  by_cases h : c == k
  · have hc : c = k := by simpa using h
    subst hc
    simp [dget_dictInsert_self d c v, h]
  · simp only [h, Bool.false_eq_true, if_false]
    exact dget_dictInsert_ne d k c v (by simpa using h)

theorem mem_dictInsert {α : Type} (d : List (String × α)) (k : String)
    (v : α) (p : String × α) (h : p ∈ dictInsert d k v) :
    p = (k, v) ∨ p ∈ d := by
  induction d with
  | nil => simpa [dictInsert] using h
  | cons q rest ih =>
    by_cases hq : q.1 == k
    · simp only [dictInsert, hq, if_true] at h
      rcases List.mem_cons.mp h with h | h
      · exact Or.inl h
      · exact Or.inr (List.mem_cons_of_mem q h)
    · simp only [dictInsert, hq, Bool.false_eq_true, if_false] at h
      rcases List.mem_cons.mp h with h | h
      · exact Or.inr (h ▸ List.mem_cons_self q rest)
      · rcases ih h with h | h
        · exact Or.inl h
        · exact Or.inr (List.mem_cons_of_mem q h)

theorem dget_setColFk (cols : List (String × Column)) (cn c : String)
    (fk : ForeignKey) :
    dget (cols.map fun p =>
        if p.1 == cn then (p.1, { p.2 with foreign_key := some fk })
        else p) c
      = if c == cn then
          (dget cols c).map fun col => { col with foreign_key := some fk }
        else dget cols c := by
  induction cols with
  | nil => cases h : c == cn <;> simp [dget, h]
  | cons p rest ih =>
    obtain ⟨a, b⟩ := p
    simp only [List.map_cons]
    by_cases han : a == cn
    · have han' : a = cn := by simpa using han
      subst han'
      simp only [han, if_true]
      by_cases hac : a == c
      · have hac' : a = c := by simpa using hac
        subst hac'
        simp [dget, beq_self_eq_true]
      · have haceq : (a == c) = false := by simpa using hac
        have hca : (c == a) = false := by
          simp; intro hc; exact absurd hc.symm (by simpa using hac)
        simp only [dget, haceq, hca, Bool.false_eq_true, if_false]
        rw [ih]
        simp [hca]
    · have haneq : (a == cn) = false := by simpa using han
      simp only [haneq, Bool.false_eq_true, if_false]
      by_cases hac : a == c
      · have hac' : a = c := by simpa using hac
        subst hac'
        simp [dget, beq_self_eq_true, haneq]
      · have haceq : (a == c) = false := by simpa using hac
        simp only [dget, haceq, Bool.false_eq_true, if_false]
        exact ih

theorem fkAttach_mirror (cols : List (String × Column))
    (m : List (String × ForeignKey)) (cn : String) (fk : ForeignKey)
    (H : MirrorCore cols m) :
    MirrorCore (fkAttach cols m cn fk).1 (fkAttach cols m cn fk).2 := by
  intro c col fk0 hcol
  simp only [fkAttach] at hcol ⊢
  rw [dget_dictInsert]
  by_cases hpres : (dget cols cn).isSome
  · simp only [hpres, if_true] at hcol
    rw [dget_setColFk] at hcol
    by_cases hc : c == cn
    · simp only [hc, if_true] at hcol ⊢
      rcases Option.map_eq_some'.mp hcol with ⟨col0, _, hcol0⟩
      subst hcol0
      simp
    · simp only [hc, Bool.false_eq_true, if_false] at hcol ⊢
      exact H c col fk0 hcol
  · simp only [hpres, Bool.false_eq_true, if_false] at hcol
    by_cases hc : c == cn
    · have hc' : c = cn := by simpa using hc
      subst hc'
      rw [hcol] at hpres
      simp at hpres
    · simp only [hc, Bool.false_eq_true, if_false]
      exact H c col fk0 hcol

theorem fkFold_mirror (step : Val → Option (String × ForeignKey))
    (fks : List Val) (cols : List (String × Column))
    (m : List (String × ForeignKey)) (H : MirrorCore cols m) :
    MirrorCore (fks.foldl
        (fun cm fk =>
          match step fk with
          | some (c, f) => fkAttach cm.1 cm.2 c f
          | none => cm)
        (cols, m)).1
      (fks.foldl
        (fun cm fk =>
          match step fk with
          | some (c, f) => fkAttach cm.1 cm.2 c f
          | none => cm)
        (cols, m)).2 := by
  induction fks generalizing cols m with
  | nil => simpa using H
  | cons fk rest ih =>
    simp only [List.foldl_cons]
    cases hstep : step fk with
    | none => exact ih cols m H
    | some cf =>
      obtain ⟨c, f⟩ := cf
      have := fkAttach_mirror cols m c f H
      exact ih _ _ this

theorem parseOneCol_fk_none (table_def : List (String × Val))
    (n : String) (v : Val) (col : Column)
    (h : parseOneCol table_def n v = some col) :
    col.foreign_key = none := by
  cases v <;> simp [parseOneCol] at h
  case vdict cd =>
    rcases h with ⟨hn, h⟩
    rcases h with ⟨hdt, h⟩
    subst h
    rfl

theorem parseCols_fk_none (table_def : List (String × Val))
    (items : List (String × Val)) :
    ∀ c col, dget (parseCols table_def items) c = some col →
      col.foreign_key = none := by
  have main : ∀ (its : List (String × Val))
      (acc : List (String × Column)),
      (∀ c col, dget acc c = some col → col.foreign_key = none) →
      ∀ c col, dget (its.foldl
          (fun cols p =>
            match parseOneCol table_def p.1 p.2 with
            | some c => dictInsert cols p.1 c
            | none => cols)
          acc) c = some col → col.foreign_key = none := by
    intro its
    induction its with
    | nil => intro acc H; simpa using H
    | cons p rest ih =>
      intro acc H c col
      simp only [List.foldl_cons]
      cases hp : parseOneCol table_def p.1 p.2 with
      | none => exact ih acc H c col
      | some c0 =>
        refine ih _ ?_ c col
        intro c1 col1 h1
        rw [dget_dictInsert] at h1
        by_cases hc1 : c1 == p.1
        · simp only [hc1, if_true] at h1
          cases h1
          exact parseOneCol_fk_none table_def p.1 p.2 c0 hp
        · simp only [hc1, Bool.false_eq_true, if_false] at h1
          exact H c1 col1 h1
  intro c col h
  exact main items [] (by simp [dget]) c col h

theorem MirrorCore_of_fk_none (cols : List (String × Column))
    (H : ∀ c col, dget cols c = some col → col.foreign_key = none) :
    MirrorCore cols [] := by
  intro c col fk hcol
  rw [H c col hcol]
  simp [dget]

theorem parseTableMapping_mirror (n : String)
    (td : List (String × Val)) (t : Table)
    (h : parseTableMapping n td = .ok t) : AmendedFkMirror t := by
  simp only [parseTableMapping, bind, Except.bind] at h
  cases hci : colItems (dgetD td "columns" (.vdict [])) with
  | error e => simp [hci] at h
  | ok items =>
    simp only [hci] at h
    have hbase := MirrorCore_of_fk_none (parseCols td items)
      (parseCols_fk_none td items)
    cases hfk : parseFksMapping td (parseCols td items) with
    | error e => simp [hfk] at h
    | ok cm =>
      simp only [hfk, pure, Except.pure] at h
      cases h
      simp only [parseFksMapping] at hfk
      rcases hraw : dgetD td "foreign_keys" (.vlist []) with
        _ | b | i | s | fks | d <;> simp only [hraw] at hfk
      · cases hfk
      · cases hfk
      · cases hfk
      · cases hfk
        exact hbase
      · cases hfk
        exact fkFold_mirror parseFkMapping fks _ _ hbase
      · cases hfk
        exact hbase

theorem parseTableList_mirror (n : String)
    (td : List (String × Val)) (t : Table)
    (h : parseTableList n td = .ok t) : AmendedFkMirror t := by
  simp only [parseTableList, bind, Except.bind] at h
  cases hci : colItems (dgetD td "columns" (.vdict [])) with
  | error e => simp [hci] at h
  | ok items =>
    simp only [hci, pure, Except.pure] at h
    cases h
    have hbase := MirrorCore_of_fk_none (parseCols td items)
      (parseCols_fk_none td items)
    simp only [parseFksList]
    rcases hraw : (if (dgetD td "foreign_keys" (.vlist [])).truthy
        then dgetD td "foreign_keys" (.vlist []) else .vlist []) with
      _ | b | i | s | fks | d
    · exact hbase
    · exact hbase
    · exact hbase
    · exact hbase
    · exact fkFold_mirror parseFkList fks _ _ hbase
    · exact hbase

theorem parseTablesMapping_mirror (ts : List (String × Val)) :
    ∀ (acc out : List (String × Table)),
      (∀ p ∈ acc, AmendedFkMirror p.2) →
      parseTablesMapping ts acc = .ok out →
      ∀ p ∈ out, AmendedFkMirror p.2 := by
  induction ts with
  | nil =>
    intro acc out H h
    simp only [parseTablesMapping] at h
    cases h
    exact H
  | cons p rest ih =>
    intro acc out H h
    simp only [parseTablesMapping] at h
    rcases hp : p.2 with _ | b | i | s | l | td <;> simp only [hp] at h
    · exact ih acc out H h
    · exact ih acc out H h
    · exact ih acc out H h
    · exact ih acc out H h
    · exact ih acc out H h
    · by_cases hn : p.1 == ""
      · rw [if_pos hn] at h
        exact ih acc out H h
      · rw [if_neg hn] at h
        cases ht : parseTableMapping p.1 td with
        | error e => rw [ht] at h; cases h
        | ok t =>
          rw [ht] at h
          refine ih _ out ?_ h
          intro q hq
          rcases mem_dictInsert acc p.1 t q hq with hq | hq
          · subst hq
            exact parseTableMapping_mirror p.1 td t ht
          · exact H q hq

theorem parseTablesList_mirror (ts : List Val) :
    ∀ (acc out : List (String × Table)),
      (∀ p ∈ acc, AmendedFkMirror p.2) →
      parseTablesList ts acc = .ok out →
      ∀ p ∈ out, AmendedFkMirror p.2 := by
  induction ts with
  | nil =>
    intro acc out H h
    simp only [parseTablesList] at h
    cases h
    exact H
  | cons v rest ih =>
    intro acc out H h
    simp only [parseTablesList] at h
    rcases hv : v with _ | b | i | s | l | td <;> simp only [hv] at h
    · exact ih acc out H h
    · exact ih acc out H h
    · exact ih acc out H h
    · exact ih acc out H h
    · exact ih acc out H h
    · by_cases hn : optTruthy (dget td "name")
      · rw [if_pos hn] at h
        cases ht : parseTableList (pyStr ((dget td "name").getD .vnull)) td
          with
        | error e => rw [ht] at h; cases h
        | ok t =>
          rw [ht] at h
          refine ih _ out ?_ h
          intro q hq
          rcases mem_dictInsert acc _ t q hq with hq | hq
          · subst hq
            exact parseTableList_mirror _ td t ht
          · exact H q hq
      · rw [if_neg hn] at h
        exact ih acc out H h

theorem parseModelCols_fk_none (l : List Val) :
    ∀ c col, dget (parseModelCols l) c = some col →
      col.foreign_key = none := by
  have main : ∀ (ms : List Val) (acc : List (String × Column)),
      (∀ c col, dget acc c = some col → col.foreign_key = none) →
      ∀ c col, dget (ms.foldl
          (fun cols col =>
            match col with
            | .vdict cd =>
              if optTruthy (dget cd "name")
                  && optTruthy (dget cd "data_type") then
                let cn := pyStr ((dget cd "name").getD .vnull)
                dictInsert cols cn
                  { name := cn
                    data_type := (dget cd "data_type").getD .vnull
                    is_primary := false
                    is_unique := false
                    foreign_key := none }
              else cols
            | _ => cols)
          acc) c = some col → col.foreign_key = none := by
    intro ms
    induction ms with
    | nil => intro acc H; simpa using H
    | cons v rest ih =>
      intro acc H c col
      simp only [List.foldl_cons]
      rcases v with _ | b | i | s | l' | cd
      · exact ih acc H c col
      · exact ih acc H c col
      · exact ih acc H c col
      · exact ih acc H c col
      · exact ih acc H c col
      · by_cases hc : optTruthy (dget cd "name")
            && optTruthy (dget cd "data_type")
        · simp only [hc, if_true]
          refine ih _ ?_ c col
          intro c1 col1 h1
          rw [dget_dictInsert] at h1
          by_cases hc1 : c1 == pyStr ((dget cd "name").getD .vnull)
          · simp only [hc1, if_true] at h1
            cases h1
            rfl
          · simp only [hc1, Bool.false_eq_true, if_false] at h1
            exact H c1 col1 h1
        · simp only [hc, Bool.false_eq_true, if_false]
          exact ih acc H c col
  intro c col h
  exact main l [] (by simp [dget]) c col h

theorem parseModels_mirror (ms : List Val) :
    ∀ acc, (∀ p ∈ acc, AmendedFkMirror p.2) →
      ∀ p ∈ parseModels ms acc, AmendedFkMirror p.2 := by
  induction ms with
  | nil => intro acc H; simpa [parseModels] using H
  | cons v rest ih =>
    intro acc H
    simp only [parseModels]
    rcases v with _ | b | i | s | l | md
    · exact ih acc H
    · exact ih acc H
    · exact ih acc H
    · exact ih acc H
    · exact ih acc H
    · by_cases hn : optTruthy (dget md "name")
      · simp only [hn, if_true]
        set cols := match dget md "columns" with
          | some (.vlist l) => parseModelCols l
          | _ => ([] : List (String × Column)) with hcols
        by_cases he : cols.isEmpty
        · simp only [he, if_true]
          exact ih acc H
        · simp only [he, Bool.false_eq_true, if_false]
          refine ih _ ?_
          intro q hq
          rcases mem_dictInsert acc _ _ q hq with hq | hq
          · subst hq
            refine MirrorCore_of_fk_none _ ?_
            intro c col hcol
            rcases hml : dget md "columns" with _ | w
            · simp only [hcols, hml] at hcol
              simp [dget] at hcol
            · rcases w with _ | b | i | s | l' | d' <;>
                simp only [hcols, hml] at hcol
              · simp [dget] at hcol
              · simp [dget] at hcol
              · simp [dget] at hcol
              · simp [dget] at hcol
              · exact parseModelCols_fk_none l' c col hcol
              · simp [dget] at hcol
          · exact H q hq
      · simp only [hn, Bool.false_eq_true, if_false]
        exact ih acc H

theorem addStubTables_mirror (names : List Val) :
    ∀ acc, (∀ p ∈ acc, AmendedFkMirror p.2) →
      ∀ p ∈ addStubTables names acc, AmendedFkMirror p.2 := by
  induction names with
  | nil => intro acc H; simpa [addStubTables] using H
  | cons tv rest ih =>
    intro acc H
    simp only [addStubTables]
    by_cases hc : tv.truthy && (dget acc (pyStr tv)).isNone
    · simp only [hc, if_true]
      refine ih _ ?_
      intro q hq
      rcases List.mem_append.mp hq with hq | hq
      · exact H q hq
      · simp only [List.mem_singleton] at hq
        subst hq
        exact MirrorCore_of_fk_none _ (by simp [dget])
    · simp only [hc, Bool.false_eq_true, if_false]
      exact ih acc H

theorem parseExamples_mirror (exs : List Val) :
    ∀ acc out, (∀ p ∈ acc, AmendedFkMirror p.2) →
      parseExamples exs acc = .ok out →
      ∀ p ∈ out, AmendedFkMirror p.2 := by
  induction exs with
  | nil =>
    intro acc out H h
    simp only [parseExamples] at h
    cases h
    exact H
  | cons ex rest ih =>
    intro acc out H h
    simp only [parseExamples] at h
    rcases hex : ex with _ | b | i | s | l | ed <;> simp only [hex] at h
    · exact ih acc out H h
    · exact ih acc out H h
    · exact ih acc out H h
    · exact ih acc out H h
    · exact ih acc out H h
    · cases hn : exampleTableNames (dgetD ed "tables" (.vlist [])) with
      | error e => rw [hn] at h; cases h
      | ok names =>
        rw [hn] at h
        exact ih _ out (addStubTables_mirror names acc H) h

theorem shapeTables_mirror (data : List (String × Val))
    (t0 : List (String × Table)) (h : shapeTables data = .ok t0) :
    ∀ p ∈ t0, AmendedFkMirror p.2 := by
  simp only [shapeTables] at h
  rcases hdt : dget data "tables" with _ | w <;> simp only [hdt] at h
  · rcases hdm : dget data "models" with _ | w' <;> simp only [hdm] at h
    · cases h; simp
    · rcases w' with _ | b | i | s | ms | d' <;> simp only [] at h <;>
        cases h
      · simp
      · simp
      · simp
      · simp
      · exact parseModels_mirror ms [] (by simp)
      · simp
  · rcases w with _ | b | i | s | ts | ts' <;> simp only [] at h
    case vlist => exact parseTablesList_mirror ts [] t0 (by simp) h
    case vdict => exact parseTablesMapping_mirror ts' [] t0 (by simp) h
    all_goals
      rcases hdm : dget data "models" with _ | w' <;> simp only [hdm] at h
      · cases h; simp
      · rcases w' with _ | b' | i' | s' | ms | d' <;> simp only [] at h <;>
          cases h
        · simp
        · simp
        · simp
        · simp
        · exact parseModels_mirror ms [] (by simp)
        · simp

theorem applyExamplesFallback_mirror (data : List (String × Val))
    (t0 tables : List (String × Table))
    (H : ∀ p ∈ t0, AmendedFkMirror p.2)
    (h : applyExamplesFallback data t0 = .ok tables) :
    ∀ p ∈ tables, AmendedFkMirror p.2 := by
  simp only [applyExamplesFallback] at h
  by_cases he : t0.isEmpty
  · rw [if_pos he] at h
    rcases hde : dget data "examples" with _ | w <;> simp only [hde] at h
    · cases h; exact H
    · rcases w with _ | b | i | s | exs | d' <;> simp only [] at h
      · cases h; exact H
      · cases h; exact H
      · cases h; exact H
      · cases h; exact H
      · exact parseExamples_mirror exs t0 tables H h
      · cases h; exact H
  · rw [if_neg he] at h
    cases h
    exact H

theorem buildTables_mirror (data : List (String × Val))
    (tables : List (String × Table))
    (h : buildTables data = .ok tables) :
    ∀ p ∈ tables, AmendedFkMirror p.2 := by
  simp only [buildTables] at h
  cases hs : shapeTables data with
  | error e => simp only [hs] at h; cases h
  | ok t0 =>
    simp only [hs] at h
    exact applyExamplesFallback_mirror data t0 tables
      (shapeTables_mirror data t0 hs) h

theorem parseData_mirror (v : Val) (s : Schema)
    (h : parseData v = .ok s) : ∀ p ∈ s.tables, AmendedFkMirror p.2 := by
  cases v with
  | vdict d =>
    simp only [parseData] at h
    cases hb : buildTables d with
    | error e => simp [hb] at h
    | ok tables =>
      simp only [hb] at h
      cases hv : validateTables tables with
      | error e => simp [hv] at h
      | ok u =>
        cases u
        simp only [hv] at h
        cases h
        exact buildTables_mirror d tables hb
  | vnull => simp [parseData] at h
  | vbool b => simp [parseData] at h
  | vint n => simp [parseData] at h
  | vstr t => simp [parseData] at h
  | vlist xs => simp [parseData] at h

/-- C5 (counterexample): the claimed two-way mirror between
`Table.foreign_keys` and the per-column `foreign_key` field fails: a
foreign key whose local column is not a parsed column of the table is
still indexed in `foreign_keys` (and validation does not check the
local side), so `parse` returns a table whose index holds a key that is
not a column. -/
theorem C5_counterexample :
    ∃ s, SchemaParser.parse (.mapping ghostFkDoc) = .ok s ∧
      dget s.tables "posts" = some ghostPostsTable ∧
      (dget ghostPostsTable.foreign_keys "ghost").isSome ∧
      dget ghostPostsTable.columns "ghost" = none ∧
      ¬ FkMirror ghostPostsTable := by
  refine ⟨_, rfl, rfl, rfl, rfl, ?_⟩
  intro h
  obtain ⟨col, hcol, -⟩ := (h "ghost"
    { column := "ghost", ref_table := "users", ref_column := "id" }).mp rfl
  simp [ghostPostsTable, dget] at hcol

/-- C5 (amended): for every schema returned by `parse` the mirror holds
in the attainable direction — restricted to names that are columns of
the table, `columns[c].foreign_key = fk` holds exactly when
`foreign_keys[c] = fk`; the index may additionally hold entries keyed
by names that are not columns. -/
theorem C5_fk_mirror_on_columns (input : ParseInput) (s : Schema)
    (h : SchemaParser.parse input = .ok s) :
    ∀ p ∈ s.tables, AmendedFkMirror p.2 := by
  cases input with
  | mapping d =>
    simp only [SchemaParser.parse] at h
    exact parseData_mirror _ s h
  | text jsonRes yamlRes =>
    cases jsonRes with
    | some v =>
      simp only [SchemaParser.parse] at h
      exact parseData_mirror _ s h
    | none =>
      cases yamlRes with
      | some v =>
        simp only [SchemaParser.parse] at h
        exact parseData_mirror _ s h
      | none =>
        simp only [SchemaParser.parse] at h
        cases h
        simp

/-- Witness for C5's amended theorem: the mirror on columns holds for
the `posts` table parsed from the Scenario A document. -/
theorem C5_witness : AmendedFkMirror scenarioAPosts :=
  C5_fk_mirror_on_columns (.mapping scenarioADoc) scenarioASchema rfl
    ("posts", scenarioAPosts)
    (List.mem_cons_of_mem _ (List.mem_cons_self _ _))

-- === C6: graph search scores, seeds and hop bounds ===

theorem foldl_preserve {α β : Type} (P : α → Prop) (step : α → β → α)
    (hstep : ∀ a b, P a → P (step a b)) :
    ∀ (l : List β) (a : α), P a → P (l.foldl step a) := by
  intro l
  induction l with
  | nil => intro a h; simpa using h
  | cons b rest ih =>
    intro a h
    rw [List.foldl_cons]
    exact ih _ (hstep a b h)

theorem enqInv_enqueue (start : List String) (hops : Nat) (t0 : String)
    (qv : List (String × Nat) × List String) (H : EnqInv start qv)
    (hnot : t0 ∉ qv.2) :
    EnqInv start (qv.1 ++ [(t0, hops + 1)], qv.2 ++ [t0]) := by
  constructor
  · intro t ht
    exact List.mem_append_left _ (H.1 t ht)
  · intro p hp hpos
    rcases List.mem_append.mp hp with hp | hp
    · exact H.2 p hp hpos
    · rw [List.mem_singleton] at hp
      subst hp
      intro hstart
      exact hnot (H.1 t0 hstart)

theorem enqStep_out (start : List String) (hops : Nat)
    (f : String × ForeignKey) (qv : List (String × Nat) × List String)
    (H : EnqInv start qv) :
    EnqInv start (if qv.2.contains f.2.ref_table then qv
      else (qv.1 ++ [(f.2.ref_table, hops + 1)],
            qv.2 ++ [f.2.ref_table])) := by
  by_cases hc : qv.2.contains f.2.ref_table
  · rw [if_pos hc]
    exact H
  · rw [if_neg hc]
    refine enqInv_enqueue start hops _ qv H ?_
    have : qv.2.contains f.2.ref_table = false := by simpa using hc
    simpa using this

theorem enqStep_in (start : List String) (hops : Nat)
    (t0 : String) (cond : Bool)
    (qv : List (String × Nat) × List String) (H : EnqInv start qv) :
    EnqInv start (if cond && !qv.2.contains t0 then
      (qv.1 ++ [(t0, hops + 1)], qv.2 ++ [t0]) else qv) := by
  by_cases hc : cond && !qv.2.contains t0
  · simp only [hc, if_true]
    refine enqInv_enqueue start hops _ qv H ?_
    have : qv.2.contains t0 = false := by
      rcases Bool.and_eq_true_iff.mp hc with ⟨-, h2⟩
      simpa using h2
    simpa using this
  · rw [if_neg hc]
    exact H

theorem graphLoop_ok (schema : Schema) (max_hops : Nat)
    (start : List String) :
    ∀ (fuel : Nat) (queue : List (String × Nat)) (visited : List String)
      (related : List Cand),
      EnqInv start (queue, visited) →
      (∀ c ∈ related, GraphCandOk start max_hops c) →
      ∀ c ∈ graphLoop schema max_hops fuel queue visited related,
        GraphCandOk start max_hops c := by
  intro fuel
  induction fuel with
  | zero =>
    intro queue visited related H Hrel c hc
    exact Hrel c (by simpa [graphLoop] using hc)
  | succ fuel ih =>
    intro queue visited related H Hrel c hc
    cases queue with
    | nil => exact Hrel c (by simpa [graphLoop] using hc)
    | cons p rest =>
      obtain ⟨tn, hops⟩ := p
      simp only [graphLoop] at hc
      have Hrest : EnqInv start (rest, visited) :=
        ⟨H.1, fun q hq => H.2 q (List.mem_cons_of_mem _ hq)⟩
      by_cases hmh : max_hops < hops
      · rw [if_pos hmh] at hc
        exact ih rest visited related Hrest Hrel c hc
      · rw [if_neg hmh] at hc
        have Hrel' : ∀ c ∈ (if 0 < hops then
            related ++ [mkGraphCand tn hops] else related),
            GraphCandOk start max_hops c := by
          by_cases hpos : 0 < hops
          · rw [if_pos hpos]
            intro c hcmem
            rcases List.mem_append.mp hcmem with hcm | hcm
            · exact Hrel c hcm
            · rw [List.mem_singleton] at hcm
              subst hcm
              exact ⟨tn, hops, rfl, hpos, Nat.le_of_not_lt hmh,
                H.2 (tn, hops) (List.mem_cons_self _ _) hpos⟩
          · rw [if_neg hpos]
            exact Hrel
        cases hlook : dget schema.tables tn with
        | none =>
          rw [hlook] at hc
          exact ih rest visited _ Hrest Hrel' c hc
        | some table =>
          rw [hlook] at hc
          have H1 : EnqInv start (table.foreign_keys.foldl
              (fun (qv : List (String × Nat) × List String) f =>
                if qv.2.contains f.2.ref_table then qv
                else (qv.1 ++ [(f.2.ref_table, hops + 1)],
                      qv.2 ++ [f.2.ref_table]))
              (rest, visited)) :=
            foldl_preserve (EnqInv start) _
              (fun a b hb => enqStep_out start hops b a hb) _ _ Hrest
          have H2 : EnqInv start (schema.tables.foldl
              (fun qv p =>
                p.2.foreign_keys.foldl
                  (fun (qv : List (String × Nat) × List String) f =>
                    if f.2.ref_table == tn && !qv.2.contains p.2.name then
                      (qv.1 ++ [(p.2.name, hops + 1)], qv.2 ++ [p.2.name])
                    else qv)
                  qv)
              (table.foreign_keys.foldl
                (fun (qv : List (String × Nat) × List String) f =>
                  if qv.2.contains f.2.ref_table then qv
                  else (qv.1 ++ [(f.2.ref_table, hops + 1)],
                        qv.2 ++ [f.2.ref_table]))
                (rest, visited))) := by
            refine foldl_preserve (EnqInv start) _ ?_ _ _ H1
            intro a b hb
            exact foldl_preserve (EnqInv start) _
              (fun a' b' hb' => enqStep_in start hops b.2.name
                (b'.2.ref_table == tn) a' hb') _ _ hb
          exact ih _ _ _ H2 Hrel' c hc

/-- C6: every candidate a graph search returns is a non-seed table at a
recorded hop distance `h` with `0 < h ≤ max_hops` and score `1/(h+1)`;
hop-0 seeds are never included and nothing beyond `max_hops` is. In
particular, over the Scenario A users/posts schema the query `user`
seeds at `users` and returns exactly `posts` at hop 1 with score
`0.5`. -/
theorem C6_graph_search_scores :
    (∀ (query : String) (schema : Schema) (top_k max_hops : Nat)
      (c : Cand), c ∈ graph_search query schema top_k max_hops →
      ∃ h : Nat, 0 < h ∧ h ≤ max_hops ∧
        c.score = some (1 / ((h : ℚ) + 1)) ∧
        c.graph_distance = some (some (h : ℚ)) ∧ c.ctype = "table" ∧
        c.name ∉ graphStartTables query.toLower schema)
    ∧ graph_search "user" scenarioASchema 5 2
        = [mkResult "table" "posts" (1/2) "Table: posts (distance 1)"
            (some (some 1))]
    ∧ graphStartTables "user" scenarioASchema = ["users"] := by
  refine ⟨?_, by with_unfolding_all decide, by with_unfolding_all decide⟩
  intro query schema top_k max_hops c hc
  simp only [graph_search] at hc
  have hmem := mem_of_mem_take hc
  rw [mem_sortDesc] at hmem
  have hok : GraphCandOk (graphStartTables query.toLower schema) max_hops
      c := by
    refine graphLoop_ok schema max_hops _ _ _ _ [] ?_ (by simp) c hmem
    constructor
    · intro t ht
      exact ht
    · intro p hp hpos
      rcases List.mem_map.mp hp with ⟨t, -, ht⟩
      rw [← ht] at hpos
      simp at hpos
  obtain ⟨t, h, hceq, hpos, hle, hnst⟩ := hok
  subst hceq
  exact ⟨h, hpos, hle, rfl, rfl, rfl, hnst⟩

/-- Witness for C6 at the Scenario A schema: the `posts` candidate. -/
theorem C6_witness :
    ∃ h : Nat, 0 < h ∧ h ≤ 2 ∧
      (mkResult "table" "posts" (1/2) "Table: posts (distance 1)"
        (some (some 1))).score = some (1 / ((h : ℚ) + 1)) ∧
      (mkResult "table" "posts" (1/2) "Table: posts (distance 1)"
        (some (some 1))).graph_distance = some (some (h : ℚ)) ∧
      (mkResult "table" "posts" (1/2) "Table: posts (distance 1)"
        (some (some 1))).ctype = "table" ∧
      (mkResult "table" "posts" (1/2) "Table: posts (distance 1)"
        (some (some 1))).name ∉ graphStartTables "user".toLower
          scenarioASchema :=
  C6_graph_search_scores.1 "user" scenarioASchema 5 2
    (mkResult "table" "posts" (1/2) "Table: posts (distance 1)"
      (some (some 1)))
    (by rw [C6_graph_search_scores.2.1]; exact List.mem_singleton.mpr rfl)

-- === C7: keyword search characterisation ===

theorem insertDesc_pairwise {α : Type} (key : α → ℚ) (c : α) (l : List α)
    (h : l.Pairwise (fun a b => key b ≤ key a)) :
    (insertDesc key c l).Pairwise (fun a b => key b ≤ key a) := by
  induction l with
  | nil => simp [insertDesc]
  | cons d ds ih =>
    rcases List.pairwise_cons.mp h with ⟨hd, hds⟩
    by_cases hlt : key c < key d
    · rw [insertDesc, if_pos hlt]
      refine List.pairwise_cons.mpr ⟨?_, ih hds⟩
      intro x hx
      rcases (mem_insertDesc key c ds x).mp hx with hx | hx
      · subst hx; exact le_of_lt hlt
      · exact hd x hx
    · rw [insertDesc, if_neg hlt]
      refine List.pairwise_cons.mpr ⟨?_, h⟩
      intro x hx
      rcases List.mem_cons.mp hx with hx | hx
      · subst hx; exact le_of_not_lt hlt
      · exact le_trans (hd x hx) (le_of_not_lt hlt)

theorem sortDesc_pairwise {α : Type} (key : α → ℚ) (l : List α) :
    (sortDesc key l).Pairwise (fun a b => key b ≤ key a) := by
  induction l with
  | nil => simp [sortDesc]
  | cons c cs ih => exact insertDesc_pairwise key c _ ih

theorem candScore_kwTableCand (p : String × Table) (ql : String) :
    candScore (kwTableCand p ql) = kwScore ql p.1 := rfl

theorem candScore_kwColCand (tn cn ql : String) :
    candScore (kwColCand tn cn ql) = kwScore ql cn := rfl

theorem kwInner_sound (ql : String) (schema : Schema) (thr : ℚ)
    (p : String × Table) (hp : p ∈ schema.tables) :
    ∀ (cols : List (String × Column)),
      (∀ q ∈ cols, q ∈ p.2.columns) →
      ∀ acc, (∀ c ∈ acc, KwCandOk ql schema thr c) →
      ∀ c ∈ cols.foldl
        (fun results q =>
          if thr ≤ kwScore ql q.1 then results ++ [kwColCand p.1 q.1 ql]
          else results)
        acc, KwCandOk ql schema thr c := by
  intro cols
  induction cols with
  | nil => intro _ acc hacc; simpa using hacc
  | cons q rest ih =>
    intro hsub acc hacc
    rw [List.foldl_cons]
    refine ih (fun r hr => hsub r (List.mem_cons_of_mem _ hr)) _ ?_
    by_cases hth : thr ≤ kwScore ql q.1
    · rw [if_pos hth]
      intro c hc
      rcases List.mem_append.mp hc with hc | hc
      · exact hacc c hc
      · rw [List.mem_singleton] at hc
        subst hc
        refine ⟨by rw [candScore_kwColCand]; exact hth, Or.inr ?_⟩
        exact ⟨p, hp, q, hsub q (List.mem_cons_self _ _), rfl⟩
    · rw [if_neg hth]
      exact hacc

theorem kwCandidates_sound (ql : String) (schema : Schema) (thr : ℚ) :
    ∀ c ∈ kwCandidates ql schema thr, KwCandOk ql schema thr c := by
  have main : ∀ (ts : List (String × Table)),
      (∀ p ∈ ts, p ∈ schema.tables) →
      ∀ acc, (∀ c ∈ acc, KwCandOk ql schema thr c) →
      ∀ c ∈ ts.foldl
        (fun results p =>
          let results :=
            if thr ≤ kwScore ql p.1 then results ++ [kwTableCand p ql]
            else results
          p.2.columns.foldl
            (fun results q =>
              if thr ≤ kwScore ql q.1 then
                results ++ [kwColCand p.1 q.1 ql]
              else results)
            results)
        acc, KwCandOk ql schema thr c := by
    intro ts
    induction ts with
    | nil => intro _ acc hacc; simpa using hacc
    | cons p rest ih =>
      intro hsub acc hacc
      rw [List.foldl_cons]
      refine ih (fun r hr => hsub r (List.mem_cons_of_mem _ hr)) _ ?_
      refine kwInner_sound ql schema thr p
        (hsub p (List.mem_cons_self _ _)) p.2.columns (fun q hq => hq)
        _ ?_
      by_cases hth : thr ≤ kwScore ql p.1
      · rw [if_pos hth]
        intro c hc
        rcases List.mem_append.mp hc with hc | hc
        · exact hacc c hc
        · rw [List.mem_singleton] at hc
          subst hc
          refine ⟨by rw [candScore_kwTableCand]; exact hth, Or.inl ?_⟩
          exact ⟨p, hsub p (List.mem_cons_self _ _), rfl⟩
      · rw [if_neg hth]
        exact hacc
  intro c hc
  exact main schema.tables (fun p hp => hp) [] (by simp) c hc

theorem kwInner_mono (ql : String) (thr : ℚ) (tn : String) :
    ∀ (cols : List (String × Column)) (acc : List Cand) (c : Cand),
      c ∈ acc →
      c ∈ cols.foldl
        (fun results q =>
          if thr ≤ kwScore ql q.1 then results ++ [kwColCand tn q.1 ql]
          else results)
        acc := by
  intro cols
  induction cols with
  | nil => intro acc c hc; simpa using hc
  | cons q rest ih =>
    intro acc c hc
    rw [List.foldl_cons]
    refine ih _ c ?_
    by_cases hth : thr ≤ kwScore ql q.1
    · rw [if_pos hth]; exact List.mem_append_left _ hc
    · rw [if_neg hth]; exact hc

theorem kwOuter_mono (ql : String) (thr : ℚ) :
    ∀ (ts : List (String × Table)) (acc : List Cand) (c : Cand),
      c ∈ acc →
      c ∈ ts.foldl
        (fun results p =>
          let results :=
            if thr ≤ kwScore ql p.1 then results ++ [kwTableCand p ql]
            else results
          p.2.columns.foldl
            (fun results q =>
              if thr ≤ kwScore ql q.1 then
                results ++ [kwColCand p.1 q.1 ql]
              else results)
            results)
        acc := by
  intro ts
  induction ts with
  | nil => intro acc c hc; simpa using hc
  | cons p rest ih =>
    intro acc c hc
    rw [List.foldl_cons]
    refine ih _ c ?_
    refine kwInner_mono ql thr p.1 p.2.columns _ c ?_
    by_cases hth : thr ≤ kwScore ql p.1
    · rw [if_pos hth]; exact List.mem_append_left _ hc
    · rw [if_neg hth]; exact hc

theorem kwInner_complete (ql : String) (thr : ℚ) (tn : String) :
    ∀ (cols : List (String × Column)) (acc : List Cand)
      (q : String × Column), q ∈ cols → thr ≤ kwScore ql q.1 →
      kwColCand tn q.1 ql ∈ cols.foldl
        (fun results q =>
          if thr ≤ kwScore ql q.1 then results ++ [kwColCand tn q.1 ql]
          else results)
        acc := by
  intro cols
  induction cols with
  | nil => intro acc q hq; simp at hq
  | cons q0 rest ih =>
    intro acc q hq hth
    rw [List.foldl_cons]
    rcases List.mem_cons.mp hq with hq | hq
    · subst hq
      refine kwInner_mono ql thr tn rest _ _ ?_
      rw [if_pos hth]
      exact List.mem_append_right _ (List.mem_singleton.mpr rfl)
    · exact ih _ q hq hth

theorem kwCandidates_complete (ql : String) (schema : Schema) (thr : ℚ) :
    (∀ p ∈ schema.tables, thr ≤ kwScore ql p.1 →
      kwTableCand p ql ∈ kwCandidates ql schema thr) ∧
    (∀ p ∈ schema.tables, ∀ q ∈ p.2.columns, thr ≤ kwScore ql q.1 →
      kwColCand p.1 q.1 ql ∈ kwCandidates ql schema thr) := by
  have mainT : ∀ (ts : List (String × Table)) (acc : List Cand)
      (p : String × Table), p ∈ ts → thr ≤ kwScore ql p.1 →
      kwTableCand p ql ∈ ts.foldl
        (fun results p =>
          let results :=
            if thr ≤ kwScore ql p.1 then results ++ [kwTableCand p ql]
            else results
          p.2.columns.foldl
            (fun results q =>
              if thr ≤ kwScore ql q.1 then
                results ++ [kwColCand p.1 q.1 ql]
              else results)
            results)
        acc := by
    intro ts
    induction ts with
    | nil => intro acc p hp; simp at hp
    | cons p0 rest ih =>
      intro acc p hp hth
      rw [List.foldl_cons]
      rcases List.mem_cons.mp hp with hp | hp
      · subst hp
        refine kwOuter_mono ql thr rest _ _ ?_
        refine kwInner_mono ql thr p.1 p.2.columns _ _ ?_
        rw [if_pos hth]
        exact List.mem_append_right _ (List.mem_singleton.mpr rfl)
      · exact ih _ p hp hth
  have mainC : ∀ (ts : List (String × Table)) (acc : List Cand)
      (p : String × Table), p ∈ ts → ∀ q ∈ p.2.columns,
      thr ≤ kwScore ql q.1 →
      kwColCand p.1 q.1 ql ∈ ts.foldl
        (fun results p =>
          let results :=
            if thr ≤ kwScore ql p.1 then results ++ [kwTableCand p ql]
            else results
          p.2.columns.foldl
            (fun results q =>
              if thr ≤ kwScore ql q.1 then
                results ++ [kwColCand p.1 q.1 ql]
              else results)
            results)
        acc := by
    intro ts
    induction ts with
    | nil => intro acc p hp; simp at hp
    | cons p0 rest ih =>
      intro acc p hp q hq hth
      rw [List.foldl_cons]
      rcases List.mem_cons.mp hp with hp | hp
      · subst hp
        refine kwOuter_mono ql thr rest _ _ ?_
        exact kwInner_complete ql thr p.1 p.2.columns _ q hq hth
      · exact ih _ p hp q hq hth
  exact ⟨fun p hp => mainT schema.tables [] p hp,
         fun p hp q hq => mainC schema.tables [] p hp q hq⟩

/-- C7: keyword search scores every table and column as the maximum of
case-insensitive substring containment (coerced to 1.0/0.0) and the
fuzzy similarity ratio of the lower-cased strings; every candidate it
keeps reaches the threshold and is of that form, every table/column
reaching the threshold is kept in the accumulation, and the returned
list is the first `top_k` of them sorted stably by descending score.
In particular keyword search for `usr` with threshold 0.5 over the
Scenario A schema returns `users` via its fuzzy ratio 0.75 even though
substring containment fails. -/
theorem C7_keyword_search_characterised :
    (∀ (query : String) (schema : Schema) (top_k : Nat) (thr : ℚ)
      (c : Cand), c ∈ keyword_search query schema top_k thr →
        KwCandOk query.toLower schema thr c)
    ∧ (∀ (query : String) (schema : Schema) (thr : ℚ),
        (∀ p ∈ schema.tables, thr ≤ kwScore query.toLower p.1 →
          kwTableCand p query.toLower ∈
            kwCandidates query.toLower schema thr) ∧
        (∀ p ∈ schema.tables, ∀ q ∈ p.2.columns,
          thr ≤ kwScore query.toLower q.1 →
          kwColCand p.1 q.1 query.toLower ∈
            kwCandidates query.toLower schema thr))
    ∧ (∀ (query : String) (schema : Schema) (top_k : Nat) (thr : ℚ),
        keyword_search query schema top_k thr
          = (sortDesc candScore
              (kwCandidates query.toLower schema thr)).take top_k
        ∧ (keyword_search query schema top_k thr).Pairwise
            (fun a b => candScore b ≤ candScore a))
    ∧ keyword_search "usr" scenarioASchema 5 (1/2)
        = [mkResult "table" "users" (3/4) "Table: users" none,
           mkResult "column" "posts.user_id" (3/5)
             "Column: user_id in posts" none]
    ∧ strContains "usr" "users" = false
    ∧ fuzzy_match "usr" "users" = 3/4 := by
  refine ⟨?_, ?_, ?_, by with_unfolding_all decide,
    by with_unfolding_all decide, by with_unfolding_all decide⟩
  · intro query schema top_k thr c hc
    simp only [keyword_search] at hc
    have hmem := mem_of_mem_take hc
    rw [mem_sortDesc] at hmem
    exact kwCandidates_sound query.toLower schema thr c hmem
  · intro query schema thr
    exact kwCandidates_complete query.toLower schema thr
  · intro query schema top_k thr
    refine ⟨rfl, ?_⟩
    exact (sortDesc_pairwise candScore _).sublist (List.take_sublist _ _)

/-- Witness for C7 at Scenario D: the `users` table candidate. -/
theorem C7_witness :
    KwCandOk "usr".toLower scenarioASchema (1/2)
      (mkResult "table" "users" (3/4) "Table: users" none) :=
  C7_keyword_search_characterised.1 "usr" scenarioASchema 5 (1/2)
    (mkResult "table" "users" (3/4) "Table: users" none)
    (by rw [C7_keyword_search_characterised.2.2.2.1]
        exact List.mem_cons_self _ _)

-- === C8: foreign-key reference sanitisation ===

/-- C8 (counterexample): sanitisation is not applied in every supported
shape. In the list-of-tables shape the referenced names are stored raw:
parsing `rawListFkDoc` succeeds and stores `ref_table = "users*"`,
which is not the sanitised form of the source value. -/
theorem C8_counterexample :
    ∃ s t f, SchemaParser.parse (.mapping rawListFkDoc) = .ok s ∧
      dget s.tables "posts" = some t ∧
      dget t.foreign_keys "user_id" = some f ∧
      f.ref_table = "users*" ∧
      stripNonWord (pyStrip (pyStr (.vstr "users*"))) ≠ "users*" := by
  refine ⟨_, _, _, rfl, rfl, rfl, rfl, by decide⟩

/-- C8 (amended): in the mapping-of-tables shape every stored foreign
key carries the source document's referenced table/column names with
whitespace stripped and one leading and one trailing run of non-word
characters removed; in the list-of-tables shape the raw values are
stored unchanged. The mapping-shape pipeline is exercised end to end on
a document with markdown noise (`**users**`, `id!`), which parses to
the clean reference. -/
theorem C8_fk_sanitisation :
    (∀ (v : Val) (c : String) (f : ForeignKey),
      parseFkMapping v = some (c, f) →
      ∃ (d rd : List (String × Val)) (rtv rcv : Val),
        v = .vdict d ∧ dgetD d "references" (.vdict []) = .vdict rd ∧
        dget rd "table" = some rtv ∧ dget rd "column" = some rcv ∧
        f.ref_table = stripNonWord (pyStrip (pyStr rtv)) ∧
        f.ref_column = stripNonWord (pyStrip (pyStr rcv)))
    ∧ (∀ (v : Val) (c : String) (f : ForeignKey),
      parseFkList v = some (c, f) →
      ∃ (d rd : List (String × Val)) (rtv rcv : Val),
        v = .vdict d ∧ dgetD d "references" (.vdict []) = .vdict rd ∧
        dget rd "table" = some rtv ∧ dget rd "column" = some rcv ∧
        f.ref_table = pyStr rtv ∧ f.ref_column = pyStr rcv)
    ∧ (∃ s t, SchemaParser.parse (.mapping noisyFkDoc) = .ok s ∧
        dget s.tables "posts" = some t ∧
        dget t.foreign_keys "user_id" = some
          { column := "user_id", ref_table := "users",
            ref_column := "id" }) := by
  refine ⟨?_, ?_, ⟨_, _, rfl, rfl, rfl⟩⟩
  · intro v c f h
    cases v <;> simp only [parseFkMapping] at h <;> try cases h
    case vdict d =>
      rcases hrd : dgetD d "references" (.vdict []) with _ | b | i | s | l | rd
        <;> simp only [hrd] at h
      · cases h
      · cases h
      · cases h
      · cases h
      · cases h
      · by_cases hcond : optTruthy (dget d "column")
            && optTruthy (dget rd "table") && optTruthy (dget rd "column")
        · rw [if_pos hcond] at h
          rcases Bool.and_eq_true_iff.mp hcond with ⟨h12, h3⟩
          rcases Bool.and_eq_true_iff.mp h12 with ⟨-, h2⟩
          cases h
          rcases hrt : dget rd "table" with _ | rtv
          · rw [hrt] at h2; simp [optTruthy] at h2
          · rcases hrc : dget rd "column" with _ | rcv
            · rw [hrc] at h3; simp [optTruthy] at h3
            · exact ⟨d, rd, rtv, rcv, rfl, hrd, hrt, hrc,
                by simp, by simp⟩
        · rw [if_neg hcond] at h
          cases h
  · intro v c f h
    cases v <;> simp only [parseFkList] at h <;> try cases h
    case vdict d =>
      rcases hrd : dgetD d "references" (.vdict []) with _ | b | i | s | l | rd
        <;> simp only [hrd] at h
      · cases h
      · cases h
      · cases h
      · cases h
      · cases h
      · by_cases hcond : optTruthy (dget d "column")
            && optTruthy (dget rd "table") && optTruthy (dget rd "column")
        · rw [if_pos hcond] at h
          rcases Bool.and_eq_true_iff.mp hcond with ⟨h12, h3⟩
          rcases Bool.and_eq_true_iff.mp h12 with ⟨-, h2⟩
          cases h
          rcases hrt : dget rd "table" with _ | rtv
          · rw [hrt] at h2; simp [optTruthy] at h2
          · rcases hrc : dget rd "column" with _ | rcv
            · rw [hrc] at h3; simp [optTruthy] at h3
            · exact ⟨d, rd, rtv, rcv, rfl, hrd, hrt, hrc,
                by simp, by simp⟩
        · rw [if_neg hcond] at h
          cases h

/-- Witness for C8's amended theorem at the noisy reference entry. -/
theorem C8_witness :
    ∃ (d rd : List (String × Val)) (rtv rcv : Val),
      Val.vdict [("column", Val.vstr "user_id"),
        ("references", Val.vdict [("table", Val.vstr "**users**"),
                                  ("column", Val.vstr "id!")])]
        = .vdict d ∧
      dgetD d "references" (.vdict []) = .vdict rd ∧
      dget rd "table" = some rtv ∧ dget rd "column" = some rcv ∧
      ({ column := "user_id", ref_table := "users", ref_column := "id" }
        : ForeignKey).ref_table = stripNonWord (pyStrip (pyStr rtv)) ∧
      ({ column := "user_id", ref_table := "users", ref_column := "id" }
        : ForeignKey).ref_column = stripNonWord (pyStrip (pyStr rcv)) :=
  C8_fk_sanitisation.1
    (.vdict [("column", .vstr "user_id"),
      ("references", .vdict [("table", .vstr "**users**"),
                             ("column", .vstr "id!")])])
    "user_id"
    { column := "user_id", ref_table := "users", ref_column := "id" }
    rfl

-- === C9: fusion and re-ranking mutate their inputs ===

theorem dget_mem_values {α : Type} (d : List (String × α)) (k : String)
    (v : α) (h : dget d k = some v) : v ∈ d.map Prod.snd := by
  induction d with
  | nil => simp [dget] at h
  | cons p rest ih =>
    by_cases hp : p.1 == k
    · simp only [dget, hp, if_true] at h
      cases h
      simp
    · simp only [dget, hp, Bool.false_eq_true, if_false] at h
      simp only [List.map_cons, List.mem_cons]
      exact Or.inr (ih h)

theorem values_dictInsert {α : Type} (d : List (String × α)) (k : String)
    (v : α) (p : String × α) (h : p ∈ dictInsert d k v) :
    p.2 = v ∨ p.2 ∈ d.map Prod.snd := by
  rcases mem_dictInsert d k v p h with h | h
  · subst h; exact Or.inl rfl
  · exact Or.inr (List.mem_map_of_mem Prod.snd h)

theorem efVecLoop_spec (vrs : List VecRes) :
    ∀ (h : Heap) (ac : List (String × Nat)),
      h.next ≤ (efVecLoop h ac vrs).1.next ∧
      (∀ i, i < h.next → (efVecLoop h ac vrs).1.objs i = h.objs i) ∧
      (∀ p ∈ (efVecLoop h ac vrs).2,
        p.2 ∈ ac.map Prod.snd ∨
        (h.next ≤ p.2 ∧ p.2 < (efVecLoop h ac vrs).1.next)) := by
  induction vrs with
  | nil =>
    intro h ac
    refine ⟨Nat.le_refl _, fun i _ => rfl, ?_⟩
    intro p hp
    exact Or.inl (List.mem_map_of_mem Prod.snd hp)
  | cons r rest ih =>
    intro h ac
    simp only [efVecLoop, Heap.alloc]
    obtain ⟨ihnext, ihframe, ihvals⟩ := ih
      { objs := fun j => if j == h.next then vecCand r else h.objs j,
        next := h.next + 1 }
      (dictInsert ac r.metadata.name h.next)
    refine ⟨Nat.le_trans (Nat.le_succ _) ihnext, ?_, ?_⟩
    · intro i hi
      rw [ihframe i (Nat.lt_succ_of_lt hi)]
      have : (i == h.next) = false := by
        simp
        exact Nat.ne_of_lt hi
      simp [this]
    · intro p hp
      rcases ihvals p hp with hv | hv
      · rcases List.mem_map.mp hv with ⟨q, hq, hqv⟩
        rcases values_dictInsert ac r.metadata.name h.next q hq with h1 | h1
        · right
          rw [← hqv, h1]
          exact ⟨Nat.le_refl _, Nat.lt_of_lt_of_le (Nat.lt_succ_self _)
            ihnext⟩
        · left
          rw [← hqv]
          exact h1
      · exact Or.inr ⟨Nat.le_trans (Nat.le_succ _) hv.1, hv.2⟩

theorem efGraphLoop_spec (gids : List Nat) :
    ∀ (h : Heap) (ac : List (String × Nat)),
      (efGraphLoop h ac gids).1.next = h.next ∧
      (∀ i, i ∉ gids → i ∉ ac.map Prod.snd →
        (efGraphLoop h ac gids).1.objs i = h.objs i) ∧
      (∀ p ∈ (efGraphLoop h ac gids).2,
        p.2 ∈ ac.map Prod.snd ∨ p.2 ∈ gids) := by
  induction gids with
  | nil =>
    intro h ac
    refine ⟨rfl, fun i _ _ => rfl, ?_⟩
    intro p hp
    exact Or.inl (List.mem_map_of_mem Prod.snd hp)
  | cons gid rest ih =>
    intro h ac
    simp only [efGraphLoop]
    cases hd : dget ac (h.objs gid).name with
    | none =>
      obtain ⟨ihnext, ihframe, ihvals⟩ := ih
        (h.write gid (graphMergeNew (h.objs gid)))
        (dictInsert ac (h.objs gid).name gid)
      refine ⟨ihnext, ?_, ?_⟩
      · intro i hig hiac
        have hir : i ∉ rest := fun hr => hig (List.mem_cons_of_mem _ hr)
        have hineq : i ≠ gid := fun he =>
          hig (he ▸ List.mem_cons_self _ _)
        have hiac' : i ∉ (dictInsert ac (h.objs gid).name gid).map
            Prod.snd := by
          intro hmem
          rcases List.mem_map.mp hmem with ⟨q, hq, hqv⟩
          rcases values_dictInsert ac _ gid q hq with h1 | h1
          · exact hineq (hqv ▸ h1 ▸ rfl)
          · exact hiac (hqv ▸ h1)
        rw [ihframe i hir hiac']
        simp only [Heap.write]
        have : (i == gid) = false := by simpa using hineq
        simp [this]
      · intro p hp
        rcases ihvals p hp with hv | hv
        · rcases List.mem_map.mp hv with ⟨q, hq, hqv⟩
          rcases values_dictInsert ac _ gid q hq with h1 | h1
          · exact Or.inr (hqv ▸ h1 ▸ List.mem_cons_self _ _)
          · exact Or.inl (hqv ▸ h1)
        · exact Or.inr (List.mem_cons_of_mem _ hv)
    | some cid =>
      obtain ⟨ihnext, ihframe, ihvals⟩ := ih
        (h.write cid (graphMergeOld (h.objs cid) (h.objs gid))) ac
      refine ⟨ihnext, ?_, ?_⟩
      · intro i hig hiac
        have hir : i ∉ rest := fun hr => hig (List.mem_cons_of_mem _ hr)
        have hineq : i ≠ cid := fun he =>
          hiac (by rw [he]; exact dget_mem_values ac _ cid hd)
        rw [ihframe i hir hiac]
        simp only [Heap.write]
        have : (i == cid) = false := by simpa using hineq
        simp [this]
      · intro p hp
        rcases ihvals p hp with hv | hv
        · exact Or.inl hv
        · exact Or.inr (List.mem_cons_of_mem _ hv)

theorem efKwLoop_spec (kids : List Nat) :
    ∀ (h : Heap) (ac : List (String × Nat)),
      (efKwLoop h ac kids).1.next = h.next ∧
      (∀ i, i ∉ kids → i ∉ ac.map Prod.snd →
        (efKwLoop h ac kids).1.objs i = h.objs i) ∧
      (∀ p ∈ (efKwLoop h ac kids).2,
        p.2 ∈ ac.map Prod.snd ∨ p.2 ∈ kids) := by
  induction kids with
  | nil =>
    intro h ac
    refine ⟨rfl, fun i _ _ => rfl, ?_⟩
    intro p hp
    exact Or.inl (List.mem_map_of_mem Prod.snd hp)
  | cons kid rest ih =>
    intro h ac
    simp only [efKwLoop]
    cases hd : dget ac (h.objs kid).name with
    | none =>
      obtain ⟨ihnext, ihframe, ihvals⟩ := ih
        (h.write kid (kwMergeNew (h.objs kid)))
        (dictInsert ac (h.objs kid).name kid)
      refine ⟨ihnext, ?_, ?_⟩
      · intro i hig hiac
        have hir : i ∉ rest := fun hr => hig (List.mem_cons_of_mem _ hr)
        have hineq : i ≠ kid := fun he =>
          hig (he ▸ List.mem_cons_self _ _)
        have hiac' : i ∉ (dictInsert ac (h.objs kid).name kid).map
            Prod.snd := by
          intro hmem
          rcases List.mem_map.mp hmem with ⟨q, hq, hqv⟩
          rcases values_dictInsert ac _ kid q hq with h1 | h1
          · exact hineq (hqv ▸ h1 ▸ rfl)
          · exact hiac (hqv ▸ h1)
        rw [ihframe i hir hiac']
        simp only [Heap.write]
        have : (i == kid) = false := by simpa using hineq
        simp [this]
      · intro p hp
        rcases ihvals p hp with hv | hv
        · rcases List.mem_map.mp hv with ⟨q, hq, hqv⟩
          rcases values_dictInsert ac _ kid q hq with h1 | h1
          · exact Or.inr (hqv ▸ h1 ▸ List.mem_cons_self _ _)
          · exact Or.inl (hqv ▸ h1)
        · exact Or.inr (List.mem_cons_of_mem _ hv)
    | some cid =>
      obtain ⟨ihnext, ihframe, ihvals⟩ := ih
        (h.write cid (kwMergeOld (h.objs cid) (h.objs kid))) ac
      refine ⟨ihnext, ?_, ?_⟩
      · intro i hig hiac
        have hir : i ∉ rest := fun hr => hig (List.mem_cons_of_mem _ hr)
        have hineq : i ≠ cid := fun he =>
          hiac (by rw [he]; exact dget_mem_values ac _ cid hd)
        rw [ihframe i hir hiac]
        simp only [Heap.write]
        have : (i == cid) = false := by simpa using hineq
        simp [this]
      · intro p hp
        rcases ihvals p hp with hv | hv
        · exact Or.inl hv
        · exact Or.inr (List.mem_cons_of_mem _ hv)

theorem writeFold_frame (ids : List Nat) (F : Heap → Nat → Cand)
    (i : Nat) (hi : i ∉ ids) :
    ∀ (l : List Nat), (∀ idx ∈ l, idx < ids.length) →
      ∀ h0 : Heap,
      (l.foldl (fun h idx => h.write (ids.getD idx 0) (F h idx))
        h0).objs i = h0.objs i := by
  intro l
  induction l with
  | nil => intro _ h0; rfl
  | cons idx rest ihl =>
    intro hbound h0
    rw [List.foldl_cons]
    rw [ihl (fun x hx => hbound x (List.mem_cons_of_mem _ hx)) _]
    simp only [Heap.write]
    have hmem : ids[idx]?.getD 0 ∈ ids := by
      have hb := hbound idx (List.mem_cons_self _ _)
      rw [List.getElem?_eq_getElem hb]
      exact List.getElem_mem _
    have hne : ¬ (i == ids.getD idx 0) = true := by
      simp
      intro he
      exact hi (he ▸ hmem)
    rw [if_neg hne]

theorem rerankST_frame (h : Heap) (ids : List Nat) (wv wg wk : ℚ)
    (i : Nat) (hi : i ∉ ids) :
    (rerankST h ids wv wg wk).1.objs i = h.objs i := by
  simp only [rerankST]
  by_cases he : ids.isEmpty
  · rw [if_pos he]
  · rw [if_neg he]
    exact writeFold_frame ids _ i hi (List.range ids.length)
      (fun idx hx => List.mem_range.mp hx) h

/-- C9 (counterexample): fusion and re-ranking are not side-effect-free
over their inputs. Running them over a heap whose object 0 is the graph
result for `posts` leaves object 0 changed: it has gained
`vector_score`/`keyword_score` (and trace and normalised fields) that
the input dict did not carry. -/
theorem C9_counterexample :
    ((fuseRerankST exHeap [] [0] [] (6/10) (2/10) (2/10)).1.objs 0
      ≠ exHeap.objs 0)
    ∧ (exHeap.objs 0).vector_score = none
    ∧ ((fuseRerankST exHeap [] [0] [] (6/10) (2/10)
        (2/10)).1.objs 0).vector_score = some 0 := by
  refine ⟨by with_unfolding_all decide, by with_unfolding_all decide,
    by with_unfolding_all decide⟩

/-- C9 (amended): the mutation is confined to the fused candidates —
the entries of the graph and keyword input lists and the dicts the
vector loop allocates. Every object outside the graph and keyword input
lists that existed before the call (in particular every vector-side
object) is unchanged after `extract_features` followed by `rerank`. -/
theorem C9_frame (h : Heap) (vector_results : List VecRes)
    (gids kids : List Nat) (wv wg wk : ℚ) (i : Nat)
    (hi : i < h.next) (hg : i ∉ gids) (hk : i ∉ kids) :
    (fuseRerankST h vector_results gids kids wv wg wk).1.objs i
      = h.objs i := by
  simp only [fuseRerankST, extractFeaturesST]
  obtain ⟨vnext, vframe, vvals⟩ := efVecLoop_spec vector_results h []
  set h1 := (efVecLoop h [] vector_results).1 with hh1
  set ac1 := (efVecLoop h [] vector_results).2 with hac1
  have hiac1 : i ∉ ac1.map Prod.snd := by
    intro hmem
    rcases List.mem_map.mp hmem with ⟨q, hq, hqv⟩
    rcases vvals q hq with hv | hv
    · simp at hv
    · exact Nat.lt_irrefl i (Nat.lt_of_lt_of_le hi (hqv ▸ hv.1))
  obtain ⟨gnext, gframe, gvals⟩ := efGraphLoop_spec gids h1 ac1
  set h2 := (efGraphLoop h1 ac1 gids).1 with hh2
  set ac2 := (efGraphLoop h1 ac1 gids).2 with hac2
  have hiac2 : i ∉ ac2.map Prod.snd := by
    intro hmem
    rcases List.mem_map.mp hmem with ⟨q, hq, hqv⟩
    rcases gvals q hq with hv | hv
    · exact hiac1 (hqv ▸ hv)
    · exact hg (hqv ▸ hv)
  obtain ⟨knext, kframe, kvals⟩ := efKwLoop_spec kids h2 ac2
  set h3 := (efKwLoop h2 ac2 kids).1 with hh3
  set ac3 := (efKwLoop h2 ac2 kids).2 with hac3
  have hiac3 : i ∉ ac3.map Prod.snd := by
    intro hmem
    rcases List.mem_map.mp hmem with ⟨q, hq, hqv⟩
    rcases kvals q hq with hv | hv
    · exact hiac2 (hqv ▸ hv)
    · exact hk (hqv ▸ hv)
  rw [rerankST_frame h3 (ac3.map Prod.snd) wv wg wk i hiac3]
  rw [kframe i hk hiac2, gframe i hg hiac1, vframe i hi]

/-- Witness for C9's frame theorem: object 5 (outside the inputs) is
untouched by the run of the counterexample. -/
theorem C9_frame_witness :
    (fuseRerankST exHeap [] [0] [] (6/10) (2/10) (2/10)).1.objs 5
      = exHeap.objs 5 :=
  C9_frame exHeap [] [0] [] (6/10) (2/10) (2/10) 5 (by decide)
    (by decide) (by decide)

-- === C10: folder merge idempotence ===

theorem dget_none_iff {α : Type} (d : List (String × α)) (k : String) :
    dget d k = none ↔ k ∉ d.map Prod.fst := by
  induction d with
  | nil => simp [dget]
  | cons p rest ih =>
    by_cases hp : p.1 == k
    · have hp' : p.1 = k := by simpa using hp
      simp [dget, hp, hp']
    · have hne : ¬ p.1 = k := by simpa using hp
      simp only [dget, hp, Bool.false_eq_true, if_false, List.map_cons,
        List.mem_cons]
      rw [ih]
      constructor
      · intro h hor
        rcases hor with h1 | h1
        · exact hne h1.symm
        · exact h h1
      · intro h hmem
        exact h (Or.inr hmem)

theorem mem_dget_isSome {α : Type} (d : List (String × α))
    (q : String × α) (h : q ∈ d) : (dget d q.1).isSome := by
  induction d with
  | nil => simp at h
  | cons p rest ih =>
    rcases List.mem_cons.mp h with h | h
    · subst h
      simp [dget, beq_self_eq_true]
    · by_cases hp : p.1 == q.1
      · simp [dget, hp]
      · simp only [dget, hp, Bool.false_eq_true, if_false]
        exact ih h

theorem dictInsert_append_of_none {α : Type} (d : List (String × α))
    (k : String) (v : α) (h : dget d k = none) :
    dictInsert d k v = d ++ [(k, v)] := by
  induction d with
  | nil => simp [dictInsert]
  | cons p rest ih =>
    by_cases hp : p.1 == k
    · simp [dget, hp] at h
    · simp only [dget, hp, Bool.false_eq_true, if_false] at h
      simp [dictInsert, hp, ih h]

theorem keys_dictInsert_of_some {α : Type} (d : List (String × α))
    (k : String) (v : α) (h : (dget d k).isSome) :
    (dictInsert d k v).map Prod.fst = d.map Prod.fst := by
  induction d with
  | nil => simp [dget] at h
  | cons p rest ih =>
    by_cases hp : p.1 == k
    · have hp' : p.1 = k := by simpa using hp
      simp [dictInsert, hp, hp']
    · simp only [dget, hp, Bool.false_eq_true, if_false] at h
      simp [dictInsert, hp, ih h]

theorem dget_append_of_some {α : Type} (d l : List (String × α))
    (k : String) (v : α) (h : dget d k = some v) :
    dget (d ++ l) k = some v := by
  induction d with
  | nil => simp [dget] at h
  | cons p rest ih =>
    by_cases hp : p.1 == k
    · simp only [dget, hp, if_true] at h
      simp [dget, hp, h]
    · simp only [dget, hp, Bool.false_eq_true, if_false] at h ⊢
      exact ih h

theorem dget_append_new {α : Type} (d : List (String × α)) (k : String)
    (v : α) (h : dget d k = none) : dget (d ++ [(k, v)]) k = some v := by
  induction d with
  | nil => simp [dget, beq_self_eq_true]
  | cons p rest ih =>
    by_cases hp : p.1 == k
    · simp [dget, hp] at h
    · simp only [dget, hp, Bool.false_eq_true, if_false] at h ⊢
      exact ih h

theorem mergeColsInto_preserve (tc : List (String × Column)) :
    ∀ (ec : List (String × Column)) (c : String) (v : Column),
      dget ec c = some v → dget (mergeColsInto ec tc) c = some v := by
  induction tc with
  | nil => intro ec c v h; simpa [mergeColsInto] using h
  | cons q rest ih =>
    intro ec c v h
    simp only [mergeColsInto, List.foldl_cons]
    by_cases hq : (dget ec q.1).isSome
    · rw [if_pos hq]
      exact ih ec c v h
    · rw [if_neg hq]
      exact ih _ c v (dget_append_of_some ec [q] c v h)

theorem mergeColsInto_subsumes (tc : List (String × Column)) :
    ∀ (ec : List (String × Column)), ∀ q ∈ tc,
      (dget (mergeColsInto ec tc) q.1).isSome := by
  induction tc with
  | nil => intro ec q hq; simp at hq
  | cons q0 rest ih =>
    intro ec q hq
    simp only [mergeColsInto, List.foldl_cons]
    rcases List.mem_cons.mp hq with hq | hq
    · subst hq
      by_cases hq0 : (dget ec q.1).isSome
      · rw [if_pos hq0]
        rcases Option.isSome_iff_exists.mp hq0 with ⟨v, hv⟩
        have := mergeColsInto_preserve rest ec q.1 v hv
        simp only [mergeColsInto] at this
        rw [this]
        rfl
      · rw [if_neg hq0]
        have hnone : dget ec q.1 = none := by
          cases hcase : dget ec q.1
          · rfl
          · exact absurd (by rw [hcase]; rfl) hq0
        have := mergeColsInto_preserve rest (ec ++ [q]) q.1 q.2
          (by rw [dget_append_new ec q.1 q.2 hnone])
        simp only [mergeColsInto] at this
        rw [this]
        rfl
    · by_cases hq0 : (dget ec q0.1).isSome
      · rw [if_pos hq0]
        exact ih ec q hq
      · rw [if_neg hq0]
        exact ih _ q hq

theorem mergeColsInto_id (tc : List (String × Column))
    (ec : List (String × Column))
    (h : ∀ q ∈ tc, (dget ec q.1).isSome) : mergeColsInto ec tc = ec := by
  induction tc with
  | nil => rfl
  | cons q rest ih =>
    simp only [mergeColsInto, List.foldl_cons]
    rw [if_pos (h q (List.mem_cons_self _ _))]
    have := ih (fun r hr => h r (List.mem_cons_of_mem _ hr))
    simpa [mergeColsInto] using this

theorem keyle_refl (m : Schema) : KeyLe m m :=
  fun _ t h => ⟨t, h, fun _ hc => hc⟩

theorem keyle_trans {a b c : Schema} (h1 : KeyLe a b) (h2 : KeyLe b c) :
    KeyLe a c := by
  intro n t h
  rcases h1 n t h with ⟨t', ht', hc'⟩
  rcases h2 n t' ht' with ⟨t'', ht'', hc''⟩
  exact ⟨t'', ht'', fun col hcol => hc'' col (hc' col hcol)⟩

theorem mergeTableStep_keyle (m : Schema) (p : String × Table) :
    KeyLe m (mergeTableStep m p) := by
  intro n t h
  simp only [mergeTableStep]
  cases hd : dget m.tables p.1 with
  | none =>
    by_cases hn : n == p.1
    · have hn' : n = p.1 := by simpa using hn
      rw [hn'] at h
      rw [h] at hd
      cases hd
    · refine ⟨t, ?_, fun _ hc => hc⟩
      simpa [dget_dictInsert_ne m.tables p.1 n p.2 (by simpa using hn)]
        using h
  | some ex =>
    by_cases hn : n == p.1
    · have hn' : n = p.1 := by simpa using hn
      subst hn'
      rw [h] at hd
      cases hd
      refine ⟨_, dget_dictInsert_self m.tables p.1 _, ?_⟩
      intro c hc
      rcases Option.isSome_iff_exists.mp hc with ⟨v, hv⟩
      rw [mergeColsInto_preserve p.2.columns t.columns c v hv]
      rfl
    · refine ⟨t, ?_, fun _ hc => hc⟩
      rw [dget_dictInsert_ne m.tables p.1 n _ (by simpa using hn)]
      exact h

theorem foldl_mergeTableStep_keyle (l : List (String × Table)) :
    ∀ m : Schema, KeyLe m (l.foldl mergeTableStep m) := by
  induction l with
  | nil => intro m; exact keyle_refl m
  | cons p rest ih =>
    intro m
    rw [List.foldl_cons]
    exact keyle_trans (mergeTableStep_keyle m p) (ih _)

theorem mergeSchema_keyle (m s : Schema) : KeyLe m (mergeSchema m s) :=
  foldl_mergeTableStep_keyle s.tables m

theorem subsumes_of_keyle {m m' s : Schema} (h : Subsumes m s)
    (hle : KeyLe m m') : Subsumes m' s := by
  intro p hp
  rcases h p hp with ⟨t, ht, hc⟩
  rcases hle p.1 t ht with ⟨t', ht', hc'⟩
  exact ⟨t', ht', fun q hq => hc' q.1 (hc q hq)⟩

theorem mergeTableStep_covers (m : Schema) (p : String × Table) :
    ∃ t, dget (mergeTableStep m p).tables p.1 = some t ∧
      ∀ q ∈ p.2.columns, (dget t.columns q.1).isSome := by
  simp only [mergeTableStep]
  cases hd : dget m.tables p.1 with
  | none =>
    refine ⟨p.2, dget_dictInsert_self m.tables p.1 p.2, ?_⟩
    intro q hq
    exact mem_dget_isSome p.2.columns q hq
  | some ex =>
    refine ⟨_, dget_dictInsert_self m.tables p.1 _, ?_⟩
    intro q hq
    exact mergeColsInto_subsumes p.2.columns ex.columns q hq

theorem foldl_mergeTableStep_subsumes (l : List (String × Table)) :
    ∀ m : Schema, ∀ p ∈ l,
      ∃ t, dget (l.foldl mergeTableStep m).tables p.1 = some t ∧
        ∀ q ∈ p.2.columns, (dget t.columns q.1).isSome := by
  induction l with
  | nil => intro m p hp; simp at hp
  | cons p0 rest ih =>
    intro m p hp
    rw [List.foldl_cons]
    rcases List.mem_cons.mp hp with hp | hp
    · subst hp
      rcases mergeTableStep_covers m p with ⟨t, ht, hc⟩
      rcases foldl_mergeTableStep_keyle rest (mergeTableStep m p) p.1 t ht
        with ⟨t', ht', hc'⟩
      exact ⟨t', ht', fun q hq => hc' q.1 (hc q hq)⟩
    · exact ih _ p hp

theorem mergeSchema_subsumes (m s : Schema) :
    Subsumes (mergeSchema m s) s :=
  fun p hp => foldl_mergeTableStep_subsumes s.tables m p hp

theorem foldl_fixed {α β : Type} (step : α → β → α) (l : List β) (a : α)
    (h : ∀ b ∈ l, step a b = a) : l.foldl step a = a := by
  induction l with
  | nil => rfl
  | cons b rest ih =>
    rw [List.foldl_cons, h b (List.mem_cons_self _ _)]
    exact ih (fun b' hb => h b' (List.mem_cons_of_mem _ hb))

theorem mergeSchema_id (m s : Schema) (h : Subsumes m s) :
    mergeSchema m s = m := by
  refine foldl_fixed mergeTableStep s.tables m ?_
  intro p hp
  rcases h p hp with ⟨t, ht, hc⟩
  simp only [mergeTableStep, ht]
  rw [mergeColsInto_id p.2.columns t.columns (fun q hq => hc q hq)]
  rw [show ({ t with columns := t.columns } : Table) = t from rfl]
  rw [dictInsert_of_dget m.tables p.1 t ht]

theorem loadStep_keyle (m : Schema) (f : ParseInput) :
    KeyLe m (loadStep m f) := by
  simp only [loadStep]
  cases SchemaParser.parse f with
  | ok s => exact mergeSchema_keyle m s
  | error e => exact keyle_refl m

theorem foldl_loadStep_keyle (files : List ParseInput) :
    ∀ m : Schema, KeyLe m (files.foldl loadStep m) := by
  induction files with
  | nil => intro m; exact keyle_refl m
  | cons f rest ih =>
    intro m
    rw [List.foldl_cons]
    exact keyle_trans (loadStep_keyle m f) (ih _)

theorem foldl_loadStep_subsumes (files : List ParseInput) :
    ∀ m : Schema, ∀ f ∈ files, ∀ s, SchemaParser.parse f = .ok s →
      Subsumes (files.foldl loadStep m) s := by
  induction files with
  | nil => intro m f hf; simp at hf
  | cons f0 rest ih =>
    intro m f hf s hs
    rw [List.foldl_cons]
    rcases List.mem_cons.mp hf with hf | hf
    · subst hf
      have hstep : loadStep m f = mergeSchema m s := by
        simp [loadStep, hs]
      rw [hstep]
      exact subsumes_of_keyle (mergeSchema_subsumes m s)
        (foldl_loadStep_keyle rest _)
    · exact ih _ f hf s hs

theorem foldl_loadStep_fixed (files : List ParseInput) (m : Schema)
    (h : ∀ f ∈ files, ∀ s, SchemaParser.parse f = .ok s → Subsumes m s) :
    files.foldl loadStep m = m := by
  refine foldl_fixed loadStep files m ?_
  intro f hf
  simp only [loadStep]
  cases hs : SchemaParser.parse f with
  | ok s => exact mergeSchema_id m s (h f hf s hs)
  | error e => rfl

theorem mergeTableStep_nodup (m : Schema) (p : String × Table)
    (h : (m.tables.map Prod.fst).Nodup) :
    ((mergeTableStep m p).tables.map Prod.fst).Nodup := by
  simp only [mergeTableStep]
  cases hd : dget m.tables p.1 with
  | none =>
    rw [dictInsert_append_of_none m.tables p.1 p.2 hd]
    rw [List.map_append]
    simp only [List.map_cons, List.map_nil]
    rw [List.nodup_append]
    refine ⟨h, List.nodup_singleton _, ?_⟩
    intro n hn hn1
    rw [List.mem_singleton] at hn1
    subst hn1
    exact ((dget_none_iff m.tables p.1).mp hd) hn
  | some ex =>
    rw [keys_dictInsert_of_some m.tables p.1 _ (by rw [hd]; rfl)]
    exact h

theorem load_folder_nodup (files : List ParseInput) :
    ∀ m : Schema, (m.tables.map Prod.fst).Nodup →
      ((files.foldl loadStep m).tables.map Prod.fst).Nodup := by
  induction files with
  | nil => intro m h; simpa using h
  | cons f rest ih =>
    intro m h
    rw [List.foldl_cons]
    refine ih _ ?_
    simp only [loadStep]
    cases SchemaParser.parse f with
    | error e => exact h
    | ok s =>
      simp only [mergeSchema]
      have aux : ∀ (l : List (String × Table)) (m0 : Schema),
          (m0.tables.map Prod.fst).Nodup →
          ((l.foldl mergeTableStep m0).tables.map Prod.fst).Nodup := by
        intro l
        induction l with
        | nil => intro m0 h0; simpa using h0
        | cons p prest ihp =>
          intro m0 h0
          rw [List.foldl_cons]
          exact ihp _ (mergeTableStep_nodup m0 p h0)
      exact aux s.tables m h

/-- C10: folder-schema merging is idempotent — merging the same
collection of files twice yields exactly the Schema obtained by merging
it once (this holds for every collection; disjointness of the declared
tables is not even needed) — and the merged schema holds no duplicate
table names. -/
theorem C10_folder_merge_idempotent (files : List ParseInput)
    (_hdisj : files.Pairwise fun f g =>
      ∀ n, n ∈ parsedNames f → n ∈ parsedNames g → False) :
    load_folder_schema (files ++ files) = load_folder_schema files
    ∧ ((load_folder_schema files).tables.map Prod.fst).Nodup := by
  constructor
  · simp only [load_folder_schema, List.foldl_append]
    exact foldl_loadStep_fixed files _
      (fun f hf s hs => foldl_loadStep_subsumes files ⟨[]⟩ f hf s hs)
  · exact load_folder_nodup files ⟨[]⟩ (by simp)

/-- Witness for C10: two files declaring the disjoint tables `users`
and `posts`. -/
theorem C10_witness :
    load_folder_schema ([fileUsers, filePosts] ++ [fileUsers, filePosts])
      = load_folder_schema [fileUsers, filePosts]
    ∧ ((load_folder_schema
        [fileUsers, filePosts]).tables.map Prod.fst).Nodup :=
  C10_folder_merge_idempotent [fileUsers, filePosts] (by
    refine List.Pairwise.cons ?_ (List.pairwise_singleton _ _)
    intro g hg n hn1 hn2
    rw [List.mem_singleton] at hg
    subst hg
    have e1 : parsedNames fileUsers = ["users"] := rfl
    have e2 : parsedNames filePosts = ["posts"] := rfl
    rw [e1, List.mem_singleton] at hn1
    rw [e2, List.mem_singleton] at hn2
    subst hn1
    exact absurd hn2 (by decide))

end DataRAG
